import Mathlib

/-!
# BRDFGenerator: split-sum BRDF lookup table

A shallow embedding of `BRDFGenerator/BRDFGenerator.cpp`.

* Unsigned 32-bit integers are natural numbers, wrapped with `% 4294967296` where the
  C++ operation can overflow (left shifts).
* Floating-point code is written once, over a record of primitive operations
  (`FloatOps`, `MathOps`).  Two interpretations are given: `exactReal`, the program read
  in exact real arithmetic, and `binary32`, IEEE-754 single precision rounding
  (round to nearest, ties to even) for the conversions and the four arithmetic
  operations, on finite values.  `binary32Math m` adds the library functions `m` to
  `binary32`: the whole program in single precision, with its `float` accumulators.
* A decimal literal of the source denotes the floating-point number nearest to it; the
  embedding writes that number (`f64 _`, `f32 _`) where the literal is not itself
  representable.
-/

namespace BRDF

/-! ## IEEE-754 rounding of rationals -/

/-- Round a rational to the nearest integer, ties going to the even neighbour. -/
def roundHalfEven (t : ℚ) : ℤ :=
  if t - ⌊t⌋ < 1 / 2 then ⌊t⌋
  else if 1 / 2 < t - ⌊t⌋ then ⌊t⌋ + 1
  else if ⌊t⌋ % 2 = 0 then ⌊t⌋ else ⌊t⌋ + 1

/-- Round `q` to `p` significant binary digits, to nearest, ties to even.  The exponent is
unbounded: the result is the IEEE-754 one whenever `q` lies in the normal range of the
format. -/
def roundBinary (p : ℕ) (q : ℚ) : ℚ :=
  roundHalfEven (q / 2 ^ (Int.log 2 |q| + 1 - (p : ℤ))) * 2 ^ (Int.log 2 |q| + 1 - (p : ℤ))

/-- Rounding to IEEE-754 binary32 (`float`): 24 significant bits. -/
def f32 (q : ℚ) : ℚ := roundBinary 24 q

/-- Rounding to IEEE-754 binary64 (`double`): 53 significant bits. -/
def f64 (q : ℚ) : ℚ := roundBinary 53 q

/-! ## Floating-point operations -/

/-- The primitive floating-point operations of the program: literals, conversion from an
integer, the four arithmetic operations and the comparison `<`. -/
structure FloatOps (F : Type) where
  /-- The value of a constant. -/
  lit : ℚ → F
  /-- Conversion `float(n)` of an integer. -/
  ofInt : ℤ → F
  add : F → F → F
  sub : F → F → F
  mul : F → F → F
  div : F → F → F
  lt : F → F → Bool

/-- The operations of `FloatOps` together with the `<cmath>` functions the program calls. -/
structure MathOps (F : Type) extends FloatOps F where
  sqrt : F → F
  cos : F → F
  sin : F → F
  abs : F → F
  pow : F → F → F

/-- The program in exact real arithmetic.  Sums are exact here; the rounding of the `float`
accumulators of `IntegrateBRDF` is read in `binary32Math`. -/
noncomputable def exactReal : MathOps ℝ where
  lit q := (q : ℝ)
  ofInt n := (n : ℝ)
  add x y := x + y
  sub x y := x - y
  mul x y := x * y
  div x y := x / y
  lt x y := decide (x < y)
  sqrt := Real.sqrt
  cos := Real.cos
  sin := Real.sin
  abs x := |x|
  pow x y := x ^ y

/-- IEEE-754 single precision on finite values: every operation returns the exact result
rounded by `f32`.  (Infinities and NaN are not represented; `div` by zero is not meant to
be used.) -/
def binary32 : FloatOps ℚ where
  lit q := q
  ofInt n := f32 n
  add x y := f32 (x + y)
  sub x y := f32 (x - y)
  mul x y := f32 (x * y)
  div x y := f32 (x / y)
  lt x y := decide (x < y)

/-! ## Vectors (`glm::vec2`, `glm::vec3`) -/

structure Vec2 (F : Type) where
  x : F
  y : F

structure Vec3 (F : Type) where
  x : F
  y : F
  z : F

section glm

variable {F : Type}

/-- Modelled from the spec: `glm::max` (library code outside `src/`), the larger of two
values, `x < y ? y : x`. -/
def glm_max (A : FloatOps F) (x y : F) : F := if A.lt x y then y else x

/-- Modelled from the spec: `glm::dot` on `vec3` (library code outside `src/`). -/
def dot (A : FloatOps F) (u v : Vec3 F) : F :=
  A.add (A.add (A.mul u.x v.x) (A.mul u.y v.y)) (A.mul u.z v.z)

/-- Modelled from the spec: `glm::cross` (library code outside `src/`). -/
def cross (A : FloatOps F) (u v : Vec3 F) : Vec3 F :=
  ⟨A.sub (A.mul u.y v.z) (A.mul v.y u.z),
   A.sub (A.mul u.z v.x) (A.mul v.z u.x),
   A.sub (A.mul u.x v.y) (A.mul v.x u.y)⟩

/-- Vector times scalar, `v * s`, componentwise (glm `operator*`). -/
def vscale (A : FloatOps F) (v : Vec3 F) (s : F) : Vec3 F :=
  ⟨A.mul v.x s, A.mul v.y s, A.mul v.z s⟩

/-- Scalar times vector, `s * v`, componentwise (glm `operator*`). -/
def scalev (A : FloatOps F) (s : F) (v : Vec3 F) : Vec3 F :=
  ⟨A.mul s v.x, A.mul s v.y, A.mul s v.z⟩

/-- Vector sum, componentwise (glm `operator+`). -/
def vadd (A : FloatOps F) (u v : Vec3 F) : Vec3 F :=
  ⟨A.add u.x v.x, A.add u.y v.y, A.add u.z v.z⟩

/-- Vector difference, componentwise (glm `operator-`). -/
def vsub (A : FloatOps F) (u v : Vec3 F) : Vec3 F :=
  ⟨A.sub u.x v.x, A.sub u.y v.y, A.sub u.z v.z⟩

/-- Modelled from the spec: `glm::normalize` (library code outside `src/`),
`v * inversesqrt(dot(v, v))` with `inversesqrt(x) = 1 / sqrt(x)`. -/
def normalize (A : MathOps F) (v : Vec3 F) : Vec3 F :=
  vscale A.toFloatOps v (A.div (A.lit 1) (A.sqrt (dot A.toFloatOps v v)))

/-- Modelled from the spec: `glm::length` (library code outside `src/`),
`sqrt(dot(v, v))`. -/
def length (A : MathOps F) (v : Vec3 F) : F := A.sqrt (dot A.toFloatOps v v)

end glm

/-! ## The sampling sequence -/

/-- `const float PI = 3.14159265358979323846264338327950288;`: the `float` nearest to the
`double` the literal denotes. -/
def PI : ℚ := f32 (f64 (314159265358979323846264338327950288 / 10 ^ 35))

/-- The integer part of `RadicalInverse_VdC` (lines 20-24): five shift/mask/OR steps on an
`unsigned int`.  A left shift keeps the low 32 bits. -/
def RadicalInverse_bits (bits : Nat) : Nat :=
  let bits := ((bits <<< 16) % 4294967296) ||| (bits >>> 16)
  let bits := (((bits &&& 1431655765) <<< 1) % 4294967296) ||| ((bits &&& 2863311530) >>> 1)
  let bits := (((bits &&& 858993459) <<< 2) % 4294967296) ||| ((bits &&& 3435973836) >>> 2)
  let bits := (((bits &&& 252645135) <<< 4) % 4294967296) ||| ((bits &&& 4042322160) >>> 4)
  let bits := (((bits &&& 16711935) <<< 8) % 4294967296) ||| ((bits &&& 4278255360) >>> 8)
  bits

/-- The `double` denoted by the literal `2.3283064365386963e-10` of line 25. -/
def vdcScale : ℚ := f64 (23283064365386963 / 10 ^ 26)

/-- `RadicalInverse_VdC`: `return float(bits) * 2.3283064365386963e-10;` after the bit
steps. -/
def RadicalInverse_VdC {F : Type} (A : FloatOps F) (bits : Nat) : F :=
  A.mul (A.ofInt (RadicalInverse_bits bits)) (A.lit vdcScale)

/-- `Hammersley`: `glm::vec2(float(i) / float(N), RadicalInverse_VdC(i))`. -/
def Hammersley {F : Type} (A : FloatOps F) (i N : Nat) : Vec2 F :=
  ⟨A.div (A.ofInt i) (A.ofInt N), RadicalInverse_VdC A i⟩


/-! ## Importance sampling and the geometry term -/

/-- `ImportanceSampleGGX` (lines 33-54). -/
def ImportanceSampleGGX {F : Type} (A : MathOps F) (Xi : Vec2 F) (roughness : F) (N : Vec3 F) :
    Vec3 F :=
  let a := A.mul roughness roughness
  let phi := A.mul (A.mul (A.lit 2) (A.lit PI)) Xi.x
  let cosTheta := A.sqrt (A.div (A.sub (A.lit 1) Xi.y)
    (A.add (A.lit 1) (A.mul (A.sub (A.mul a a) (A.lit 1)) Xi.y)))
  let sinTheta := A.sqrt (A.sub (A.lit 1) (A.mul cosTheta cosTheta))
  -- from spherical coordinates to cartesian coordinates
  let H : Vec3 F := ⟨A.mul (A.cos phi) sinTheta, A.mul (A.sin phi) sinTheta, cosTheta⟩
  -- from tangent-space vector to world-space sample vector
  let up : Vec3 F :=
    if A.lt (A.abs N.z) (A.lit (f64 (999 / 1000))) then ⟨A.lit 0, A.lit 0, A.lit 1⟩
    else ⟨A.lit 1, A.lit 0, A.lit 0⟩
  let tangent := normalize A (cross A.toFloatOps up N)
  let bitangent := cross A.toFloatOps N tangent
  let sampleVec := vadd A.toFloatOps
    (vadd A.toFloatOps (vscale A.toFloatOps tangent H.x) (vscale A.toFloatOps bitangent H.y))
    (vscale A.toFloatOps N H.z)
  normalize A sampleVec

/-- `GeometrySchlickGGX` (lines 56-65). -/
def GeometrySchlickGGX {F : Type} (A : FloatOps F) (NdotV roughness : F) : F :=
  let a := roughness
  let k := A.div (A.mul a a) (A.lit 2)
  let nom := NdotV
  let denom := A.add (A.mul NdotV (A.sub (A.lit 1) k)) k
  A.div nom denom

/-- `GeometrySmith` (lines 67-73). -/
def GeometrySmith {F : Type} (A : FloatOps F) (roughness NoV NoL : F) : F :=
  let ggx2 := GeometrySchlickGGX A NoV roughness
  let ggx1 := GeometrySchlickGGX A NoL roughness
  A.mul ggx1 ggx2

/-! ## The split-sum integral -/

/-- The view vector `V` built at the head of `IntegrateBRDF` (lines 77-80). -/
def viewVector {F : Type} (A : MathOps F) (NdotV : F) : Vec3 F :=
  ⟨A.sqrt (A.sub (A.lit 1) (A.mul NdotV NdotV)), A.lit 0, NdotV⟩

/-- The fixed normal `N = (0, 0, 1)` of `IntegrateBRDF` (line 85). -/
def normalVector {F : Type} (A : FloatOps F) : Vec3 F := ⟨A.lit 0, A.lit 0, A.lit 1⟩

/-- One iteration of the sample loop of `IntegrateBRDF` (lines 89-107): the accumulators
`(A, B)` after sample `i`. -/
def sampleStep {F : Type} (A : MathOps F) (V N : Vec3 F) (roughness : F) (samples : Nat)
    (acc : F × F) (i : Nat) : F × F :=
  let Xi := Hammersley A.toFloatOps i samples
  let H := ImportanceSampleGGX A Xi roughness N
  let L := normalize A
    (vsub A.toFloatOps (scalev A.toFloatOps (A.mul (A.lit 2) (dot A.toFloatOps V H)) H) V)
  let NoL := glm_max A.toFloatOps L.z (A.lit 0)
  let NoH := glm_max A.toFloatOps H.z (A.lit 0)
  let VoH := glm_max A.toFloatOps (dot A.toFloatOps V H) (A.lit 0)
  let NoV := glm_max A.toFloatOps (dot A.toFloatOps N V) (A.lit 0)
  if A.lt (A.lit 0) NoL then
    let G := GeometrySmith A.toFloatOps roughness NoV NoL
    let G_Vis := A.div (A.mul G VoH) (A.mul NoH NoV)
    let Fc := A.pow (A.sub (A.lit 1) VoH) (A.lit 5)
    (A.add acc.1 (A.mul (A.sub (A.lit 1) Fc) G_Vis), A.add acc.2 (A.mul Fc G_Vis))
  else acc

/-- `IntegrateBRDF` (lines 75-111): the loop runs `i = 0, ..., samples - 1` from the
accumulators `(0, 0)`, and both are divided by `float(samples)`. -/
def IntegrateBRDF {F : Type} (A : MathOps F) (NdotV roughness : F) (samples : Nat) : Vec2 F :=
  let V := viewVector A NdotV
  let N := normalVector A.toFloatOps
  let AB := (List.range samples).foldl (sampleStep A V N roughness samples) (A.lit 0, A.lit 0)
  ⟨A.div AB.1 (A.ofInt samples), A.div AB.2 (A.ofInt samples)⟩

/-! ## `main`: the command line -/

/-- What `strtol(s, &p, 10)` reports: the value returned, whether `*p` is the terminating
NUL afterwards, and whether `errno` was set to `ERANGE`. -/
structure StrtolResult where
  value : Int
  atEnd : Bool
  erange : Bool

/-- The characters `isspace` accepts in the C locale. -/
def isSpaceC (c : Char) : Bool :=
  c = ' ' || c = '\t' || c = '\n' || c = '\r' || c.toNat = 11 || c.toNat = 12

/-- The value of a run of decimal digits, most significant first. -/
def digitsValue (ds : List Char) : Nat :=
  ds.foldl (fun acc c => 10 * acc + (c.toNat - '0'.toNat)) 0

/-- Modelled from the spec: the C library's `strtol` in base 10 (library code outside
`src/`): white space, an optional sign, then the longest run of decimal digits; without a
digit nothing is consumed and the value is 0; a value outside `[-longMax - 1, longMax]` is
clamped and sets `errno`. -/
def strtol (longMax : Int) (s : String) : StrtolResult :=
  let cs := s.toList
  let body := cs.dropWhile isSpaceC
  let neg := body.head? = some '-'
  let unsignedPart := if body.head? = some '-' ∨ body.head? = some '+' then body.tail else body
  let ds := unsignedPart.takeWhile Char.isDigit
  let rest := unsignedPart.dropWhile Char.isDigit
  if ds.isEmpty then ⟨0, cs.isEmpty, false⟩
  else
    let v : Int := if neg then -(digitsValue ds : Int) else (digitsValue ds : Int)
    if v > longMax then ⟨longMax, rest.isEmpty, true⟩
    else if v < -longMax - 1 then ⟨-longMax - 1, rest.isEmpty, true⟩
    else ⟨v, rest.isEmpty, false⟩

/-- Conversion of a `long` to `int` (32 bits, two's complement). -/
def toInt32 (v : Int) : Int := (v + 2147483648) % 4294967296 - 2147483648

/-- `INT_MAX`. -/
def INT_MAX : Int := 2147483647

/-- The variables `main` sets from the command line, and `errno`. -/
structure Options where
  samples : Int
  size : Int
  bits : Int
  filename : String
  errno : Int
  deriving DecidableEq

/-- The default parameters (lines 116-119), with `errno = 0` (line 137). -/
def defaultOptions : Options := ⟨1024, 128, 16, "", 0⟩

/-- The body of the option loop for index `i` (lines 145-171): `arg` is `argv[i]`, `next`
is `argv[i + 1]` when `i + 1 != argc`.  `Except.error msg` is `exit(0)` after printing
`msg`. -/
def optionStep (longMax : Int) (o : Options) (arg : String) (next : Option String) :
    Except String Options :=
  match next with
  | none => .ok o
  | some v =>
    if arg = "-f" then .ok { o with filename := v }
    else if arg = "-n" then
      let r := strtol longMax v
      let samples := toInt32 r.value
      let errno := if r.erange then 34 else o.errno
      if errno ≠ 0 ∨ r.atEnd = false ∨ samples > INT_MAX ∨ samples < 0 then
        .error "Invalid samples input, should be an integer value greater than 0.\n"
      else .ok { o with samples := samples, errno := errno }
    else if arg = "-s" then
      let r := strtol longMax v
      let size := toInt32 r.value
      let errno := if r.erange then 34 else o.errno
      if errno ≠ 0 ∨ r.atEnd = false ∨ size > INT_MAX ∨ size < 0 then
        .error "Invalid size input, should be an integer value greater than 0.\n"
      else .ok { o with size := size, errno := errno }
    else if arg = "-b" then
      let r := strtol longMax v
      let bits := toInt32 r.value
      let errno := if r.erange then 34 else o.errno
      if errno ≠ 0 ∨ r.atEnd = false ∨ bits > INT_MAX ∨ (bits ≠ 16 ∧ bits ≠ 32) then
        .error "Invalid bit input, should be an integer value of 16 or 32.\n"
      else .ok { o with bits := bits, errno := errno }
    else .ok o

/-- The option loop (lines 143-172) over `argv[1], ..., argv[argc - 1]`, given as the list
of the remaining arguments. -/
def optionLoop (longMax : Int) : Options → List String → Except String Options
  | o, [] => .ok o
  | o, arg :: rest =>
    match optionStep longMax o arg rest.head? with
    | .error msg => .error msg
    | .ok o2 => optionLoop longMax o2 rest

/-- `filename.substr(filename.find_last_of(".") + 1)`: the text after the last `.`, the
whole string when there is none (`npos + 1` is 0). -/
def extension (filename : String) : String :=
  let cs := filename.toList
  if cs.contains '.' then
    String.mk (cs.reverse.takeWhile (fun c => c ≠ '.')).reverse
  else filename

/-- The command-line part of `main` (lines 113-186): the options generation runs with, or
the message printed before `exit(0)`. -/
def parseArgs (longMax : Int) (argv : List String) : Except String Options :=
  if argv.length < 3 then
    .error ("Usage: " ++ argv.headD "" ++ " -f filename <Options>\n"
      ++ "Options:\n"
      ++ "\t-s SIZE \tThe size of the lookup table in pixels [size x size]. Default: 256\n"
      ++ "\t-n SAMPLES \tThe number of BRDF samples to integrate per pixel. Default: 1024\n"
      ++ "\t-b BITS \tThe number of floating point bits used for texture storage. "
      ++ "Can either be 16 or 32. Default: 16\n\n")
  else
    match optionLoop longMax defaultOptions argv.tail with
    | .error msg => .error msg
    | .ok o =>
      if ¬ (extension o.filename = "dds") ∧ ¬ (extension o.filename = "ktx") then
        .error "Filename must have the dds or ktx extension.\n"
      else if o.filename.isEmpty then
        .error "Must provide filename, please try again.\n"
      else .ok o

/-! ## `main`: the lookup table -/

/-- What one `tex.store` call writes. -/
inductive Texel (F : Type) where
  /-- `store<glm::uint32>(..., gli::packHalf2x16(v))`: the pair packed as two half floats. -/
  | half (v : Vec2 F)
  /-- `store<glm::vec2>(..., v)`: the pair as two 32-bit floats. -/
  | full (v : Vec2 F)

/-- One `tex.store({column, row}, 0, texel)` call. -/
structure Store (F : Type) where
  column : Int
  row : Int
  texel : Texel F

/-- The arguments `(NoV, roughness)` computed for pixel `(x, y)` (lines 199-200). -/
def pixelParams {F : Type} (A : FloatOps F) (size : Int) (x y : Int) : F × F :=
  (A.mul (A.add (A.ofInt y) (A.lit (1 / 2))) (A.div (A.lit 1) (A.ofInt size)),
   A.mul (A.add (A.ofInt x) (A.lit (1 / 2))) (A.div (A.lit 1) (A.ofInt size)))

/-- Conversion of the `int samples` to the `unsigned int` parameter of `IntegrateBRDF`. -/
def toUInt32 (v : Int) : Nat := (v % 4294967296).toNat

/-- The body of the pixel loop (lines 199-205): the stores made for pixel `(x, y)`. -/
def pixelStores {F : Type} (A : MathOps F) (size bits samples : Int) (y x : Nat) :
    List (Store F) :=
  let NoV := (pixelParams A.toFloatOps size x y).1
  let roughness := (pixelParams A.toFloatOps size x y).2
  (if bits = 16 then
      [⟨y, size - 1 - x, .half (IntegrateBRDF A NoV roughness (toUInt32 samples))⟩]
    else []) ++
  (if bits = 32 then
      [⟨y, size - 1 - x, .full (IntegrateBRDF A NoV roughness (toUInt32 samples))⟩]
    else [])

/-- The pixel loops of `main` (lines 195-207): every `tex.store` call, in order. -/
def lutStores {F : Type} (A : MathOps F) (size bits samples : Int) : List (Store F) :=
  (List.range size.toNat).flatMap fun y =>
    (List.range size.toNat).flatMap fun x => pixelStores A size bits samples y x

/-- `main`: the message it exits with, or the options and the stores of a run that reaches
`gli::save`. -/
def main {F : Type} (A : MathOps F) (longMax : Int) (argv : List String) :
    Except String (Options × List (Store F)) :=
  match parseArgs longMax argv with
  | .error msg => .error msg
  | .ok o => .ok (o, lutStores A o.size o.bits o.samples)

/-- The texel coordinates of a texture of edge `size`: `0 ≤ column, row < size`. -/
def pixelGrid (size : Int) : Set (Int × Int) :=
  {p | 0 ≤ p.1 ∧ p.1 < size ∧ 0 ≤ p.2 ∧ p.2 < size}

/-- What the validation of `main` does establish. -/
def ValidOptions (o : Options) : Prop :=
  0 ≤ o.samples ∧ 0 ≤ o.size ∧ (o.bits = 16 ∨ o.bits = 32)

/-! ## The quantities the specification names -/

/-- The factor `G1(x) = x / (x * (1 - k) + k)` of the Smith geometry term. -/
noncomputable def G1 (k x : ℝ) : ℝ := x / (x * (1 - k) + k)

/-- The dot product of two real vectors. -/
noncomputable def realDot (u v : Vec3 ℝ) : ℝ := u.x * v.x + u.y * v.y + u.z * v.z

/-- The view vector `V = (sqrt(1 - NdotV^2), 0, NdotV)`. -/
noncomputable def sampleV (NdotV : ℝ) : Vec3 ℝ := ⟨Real.sqrt (1 - NdotV ^ 2), 0, NdotV⟩

/-- The half vector of sample `i` of `N`:
`H_i = ImportanceSampleGGX(Hammersley(i, N), roughness, (0, 0, 1))`. -/
noncomputable def sampleH (roughness : ℝ) (N i : ℕ) : Vec3 ℝ :=
  ImportanceSampleGGX exactReal (Hammersley exactReal.toFloatOps i N) roughness ⟨0, 0, 1⟩

/-- The light vector of sample `i`: `L_i = normalize(2 * dot(V, H_i) * H_i - V)`. -/
noncomputable def sampleL (NdotV roughness : ℝ) (N i : ℕ) : Vec3 ℝ :=
  normalize exactReal
    ⟨2 * realDot (sampleV NdotV) (sampleH roughness N i) * (sampleH roughness N i).x
        - (sampleV NdotV).x,
     2 * realDot (sampleV NdotV) (sampleH roughness N i) * (sampleH roughness N i).y
        - (sampleV NdotV).y,
     2 * realDot (sampleV NdotV) (sampleH roughness N i) * (sampleH roughness N i).z
        - (sampleV NdotV).z⟩

/-- `NoL_i = max(L_i.z, 0)`. -/
noncomputable def sampleNoL (NdotV roughness : ℝ) (N i : ℕ) : ℝ :=
  Max.max (sampleL NdotV roughness N i).z 0

/-- `NoH_i = max(H_i.z, 0)`. -/
noncomputable def sampleNoH (roughness : ℝ) (N i : ℕ) : ℝ := Max.max (sampleH roughness N i).z 0

/-- `VoH_i = max(dot(V, H_i), 0)`. -/
noncomputable def sampleVoH (NdotV roughness : ℝ) (N i : ℕ) : ℝ :=
  Max.max (realDot (sampleV NdotV) (sampleH roughness N i)) 0

/-- `NoV = max(dot(N, V), 0)` with `N = (0, 0, 1)`. -/
noncomputable def sampleNoV (NdotV : ℝ) : ℝ := Max.max (realDot ⟨0, 0, 1⟩ (sampleV NdotV)) 0

/-- `G_Vis_i = GeometrySmith(roughness, NoV, NoL_i) * VoH_i / (NoH_i * NoV)`. -/
noncomputable def sampleGVis (NdotV roughness : ℝ) (N i : ℕ) : ℝ :=
  GeometrySmith exactReal.toFloatOps roughness (sampleNoV NdotV) (sampleNoL NdotV roughness N i)
    * sampleVoH NdotV roughness N i / (sampleNoH roughness N i * sampleNoV NdotV)

/-- `Fc_i = (1 - VoH_i)^5`. -/
noncomputable def sampleFc (NdotV roughness : ℝ) (N i : ℕ) : ℝ :=
  (1 - sampleVoH NdotV roughness N i) ^ 5

/-- The polar cosine of the sampled half vector:
`cosTheta = sqrt((1 - y) / (1 + (a^2 - 1) * y))` with `a = roughness^2`. -/
noncomputable def cosThetaGGX (roughness y : ℝ) : ℝ :=
  Real.sqrt ((1 - y) / (1 + ((roughness ^ 2) ^ 2 - 1) * y))

/-- The polar sine of the sampled half vector: `sinTheta = sqrt(1 - cosTheta^2)`. -/
noncomputable def sinThetaGGX (roughness y : ℝ) : ℝ :=
  Real.sqrt (1 - cosThetaGGX roughness y ^ 2)

/-- The vector `2 * dot(V, H_i) * H_i - V` that `IntegrateBRDF` passes to `normalize` to get
`L_i`. -/
noncomputable def sampleR (NdotV roughness : ℝ) (N i : ℕ) : Vec3 ℝ :=
  ⟨2 * realDot (sampleV NdotV) (sampleH roughness N i) * (sampleH roughness N i).x
      - (sampleV NdotV).x,
   2 * realDot (sampleV NdotV) (sampleH roughness N i) * (sampleH roughness N i).y
      - (sampleV NdotV).y,
   2 * realDot (sampleV NdotV) (sampleH roughness N i) * (sampleH roughness N i).z
      - (sampleV NdotV).z⟩

/-- The vector `tangent * H.x + bitangent * H.y + N * H.z` that `ImportanceSampleGGX` passes
to its final `normalize`, for the normal `(0, 0, 1)`. -/
noncomputable def sampleVecGGX (Xi : Vec2 ℝ) (roughness : ℝ) : Vec3 ℝ :=
  ⟨Real.sin (2 * (PI : ℝ) * Xi.x) * sinThetaGGX roughness Xi.y,
   -(Real.cos (2 * (PI : ℝ) * Xi.x) * sinThetaGGX roughness Xi.y),
   cosThetaGGX roughness Xi.y⟩

/-! ## The program in single precision -/

/-- Round a real to the nearest integer, ties going to the even neighbour. -/
noncomputable def roundHalfEvenR (t : ℝ) : ℤ :=
  if t - ⌊t⌋ < 1 / 2 then ⌊t⌋
  else if 1 / 2 < t - ⌊t⌋ then ⌊t⌋ + 1
  else if ⌊t⌋ % 2 = 0 then ⌊t⌋ else ⌊t⌋ + 1

/-- Rounding of a real to IEEE-754 binary32 (`float`), to nearest, ties to even, with an
unbounded exponent: `roundBinary 24` on the reals. -/
noncomputable def f32R (x : ℝ) : ℚ :=
  roundHalfEvenR (x / 2 ^ (Int.log 2 |x| + 1 - 24)) * 2 ^ (Int.log 2 |x| + 1 - 24)

/-- The `<cmath>` functions the program calls, on `float` values. -/
structure Libm where
  sqrt : ℚ → ℚ
  cos : ℚ → ℚ
  sin : ℚ → ℚ
  pow : ℚ → ℚ → ℚ

/-- The library functions with correctly rounded results.  (The source calls the `double`
functions and narrows the result to `float`; where the exact value is a `float`, as at
`sqrt(0)`, `sqrt(1)`, `pow(0, 5)` and `pow(0.5, 5)`, both give that value.) -/
noncomputable def libm32 : Libm where
  sqrt q := f32R (Real.sqrt q)
  cos q := f32R (Real.cos q)
  sin q := f32R (Real.sin q)
  pow x y := f32R ((x : ℝ) ^ (y : ℝ))

/-- What the single-precision results below need from the library functions: `sqrt` is
exact at 0 and 1 and positive on positive arguments, and `pow(0, 5)` is 0. -/
def Libm.Sane (m : Libm) : Prop :=
  m.sqrt 0 = 0 ∧ m.sqrt 1 = 1 ∧ (∀ q, 0 < q → 0 < m.sqrt q) ∧ m.pow 0 5 = 0

/-- The program in single precision: the arithmetic of `binary32` with the library
functions `m`. -/
def binary32Math (m : Libm) : MathOps ℚ where
  toFloatOps := binary32
  sqrt := m.sqrt
  cos := m.cos
  sin := m.sin
  abs x := |x|
  pow := m.pow

/-- The program in single precision with correctly rounded library functions. -/
noncomputable def float32 : MathOps ℚ := binary32Math libm32

/-! ## Auxiliary notions for the bit reversal -/

/-- Index map of one swap stage: blocks of `k` bits are exchanged pairwise. -/
def swapIdx (k j : Nat) : Nat := if (j / k) % 2 = 0 then j + k else j - k

/-- A word is 32 bits wide when every bit from position 32 on is clear. -/
def Word32 (b : Nat) : Prop := ∀ m, 32 ≤ m → b.testBit m = false

/-! # Theorems -/

/-! ## Facts about rounding -/

theorem roundHalfEven_intCast (n : ℤ) : roundHalfEven (n : ℚ) = n := by
  simp [roundHalfEven]

theorem floor_le_roundHalfEven (t : ℚ) : ⌊t⌋ ≤ roundHalfEven t := by
  unfold roundHalfEven
  split_ifs <;> omega

theorem roundHalfEven_le_floor_add_one (t : ℚ) : roundHalfEven t ≤ ⌊t⌋ + 1 := by
  unfold roundHalfEven
  split_ifs <;> omega

theorem le_roundHalfEven {t : ℚ} {n : ℤ} (h : (n : ℚ) ≤ t) : n ≤ roundHalfEven t :=
  le_trans (Int.le_floor.2 h) (floor_le_roundHalfEven t)

theorem roundHalfEven_le {t : ℚ} {n : ℤ} (h : t ≤ (n : ℚ)) : roundHalfEven t ≤ n := by
  rcases eq_or_lt_of_le h with h | h
  · rw [h, roundHalfEven_intCast]
  · have : ⌊t⌋ < n := Int.floor_lt.2 h
    have := roundHalfEven_le_floor_add_one t
    omega

theorem roundHalfEven_mono {t s : ℚ} (h : t ≤ s) : roundHalfEven t ≤ roundHalfEven s := by
  have hf : ⌊t⌋ ≤ ⌊s⌋ := Int.floor_mono h
  rcases eq_or_lt_of_le hf with hf | hf
  · unfold roundHalfEven
    rw [← hf]
    have : t - ⌊t⌋ ≤ s - ⌊t⌋ := by linarith
    split_ifs <;> first | omega | linarith
  · have h1 := roundHalfEven_le_floor_add_one t
    have h2 := floor_le_roundHalfEven s
    omega

theorem two_zpow_pos (e : ℤ) : (0 : ℚ) < 2 ^ e := zpow_pos (by norm_num) e

theorem log_eq_of_bounds {q : ℚ} {e : ℤ} (h1 : (2 : ℚ) ^ e ≤ q) (h2 : q < 2 ^ (e + 1)) :
    Int.log 2 q = e := by
  have hq : 0 < q := lt_of_lt_of_le (two_zpow_pos e) h1
  have h3 : e ≤ Int.log 2 q := (Int.zpow_le_iff_le_log (by norm_num) hq).1 (by exact_mod_cast h1)
  have h4 : Int.log 2 q < e + 1 := (Int.lt_zpow_iff_log_lt (by norm_num) hq).1 (by exact_mod_cast h2)
  omega

theorem zpow_log_le {q : ℚ} (hq : 0 < q) : (2 : ℚ) ^ Int.log 2 q ≤ q := by
  have := Int.zpow_log_le_self (b := 2) (by norm_num) hq
  exact_mod_cast this

theorem lt_zpow_log_succ (q : ℚ) : q < (2 : ℚ) ^ (Int.log 2 q + 1) := by
  have := Int.lt_zpow_succ_log_self (b := 2) (by norm_num) q
  exact_mod_cast this

/-- The scaled significand of a positive rational lies in `[2^(p-1), 2^p)`. -/
theorem significand_bounds (p : ℕ) {q : ℚ} (hq : 0 < q) :
    (2 : ℚ) ^ ((p : ℤ) - 1) ≤ q / 2 ^ (Int.log 2 q + 1 - (p : ℤ)) ∧
      q / 2 ^ (Int.log 2 q + 1 - (p : ℤ)) < 2 ^ (p : ℤ) := by
  have hu := two_zpow_pos (Int.log 2 q + 1 - (p : ℤ))
  constructor
  · rw [le_div_iff₀ hu, ← zpow_add₀ (by norm_num : (2 : ℚ) ≠ 0)]
    have : (p : ℤ) - 1 + (Int.log 2 q + 1 - (p : ℤ)) = Int.log 2 q := by ring
    rw [this]; exact zpow_log_le hq
  · rw [div_lt_iff₀ hu, ← zpow_add₀ (by norm_num : (2 : ℚ) ≠ 0)]
    have : (p : ℤ) + (Int.log 2 q + 1 - (p : ℤ)) = Int.log 2 q + 1 := by ring
    rw [this]; exact lt_zpow_log_succ q

/-- A positive rational rounds into its own binade, closed at the top. -/
theorem roundBinary_bounds (p : ℕ) (hp : 1 ≤ p) {q : ℚ} (hq : 0 < q) :
    (2 : ℚ) ^ Int.log 2 q ≤ roundBinary p q ∧ roundBinary p q ≤ 2 ^ (Int.log 2 q + 1) := by
  obtain ⟨h1, h2⟩ := significand_bounds p hq
  have hu := two_zpow_pos (Int.log 2 q + 1 - (p : ℤ))
  unfold roundBinary
  rw [abs_of_pos hq]
  have e1 : ((2 : ℚ) ^ ((p : ℤ) - 1)) = (((2 : ℤ) ^ (p - 1) : ℤ) : ℚ) := by
    have : (p : ℤ) - 1 = ((p - 1 : ℕ) : ℤ) := by omega
    rw [this, zpow_natCast]; push_cast; rfl
  have e2 : ((2 : ℚ) ^ (p : ℤ)) = (((2 : ℤ) ^ p : ℤ) : ℚ) := by
    rw [zpow_natCast]; push_cast; rfl
  have l1 : ((2 : ℤ) ^ (p - 1) : ℤ) ≤ roundHalfEven (q / 2 ^ (Int.log 2 q + 1 - (p : ℤ))) :=
    le_roundHalfEven (by rw [← e1]; exact h1)
  have l2 : roundHalfEven (q / 2 ^ (Int.log 2 q + 1 - (p : ℤ))) ≤ ((2 : ℤ) ^ p : ℤ) :=
    roundHalfEven_le (by rw [← e2]; exact h2.le)
  constructor
  · calc (2 : ℚ) ^ Int.log 2 q
        = 2 ^ ((p : ℤ) - 1) * 2 ^ (Int.log 2 q + 1 - (p : ℤ)) := by
          rw [← zpow_add₀ (by norm_num : (2 : ℚ) ≠ 0)]; congr 1; ring
      _ ≤ _ := by
          rw [e1]
          exact mul_le_mul_of_nonneg_right (by exact_mod_cast l1) hu.le
  · calc (roundHalfEven (q / 2 ^ (Int.log 2 q + 1 - (p : ℤ))) : ℚ)
          * 2 ^ (Int.log 2 q + 1 - (p : ℤ))
        ≤ 2 ^ (p : ℤ) * 2 ^ (Int.log 2 q + 1 - (p : ℤ)) := by
          rw [e2]
          exact mul_le_mul_of_nonneg_right (by exact_mod_cast l2) hu.le
      _ = 2 ^ (Int.log 2 q + 1) := by
          rw [← zpow_add₀ (by norm_num : (2 : ℚ) ≠ 0)]; congr 1; ring

theorem roundBinary_zero (p : ℕ) : roundBinary p 0 = 0 := by
  simp [roundBinary, roundHalfEven]

theorem roundBinary_nonneg (p : ℕ) (hp : 1 ≤ p) {q : ℚ} (hq : 0 ≤ q) : 0 ≤ roundBinary p q := by
  rcases eq_or_lt_of_le hq with h | h
  · rw [← h, roundBinary_zero]
  · exact le_trans (two_zpow_pos _).le (roundBinary_bounds p hp h).1

/-- Rounding is monotone on the non-negative rationals. -/
theorem roundBinary_mono (p : ℕ) (hp : 1 ≤ p) {x y : ℚ} (hx : 0 ≤ x) (hxy : x ≤ y) :
    roundBinary p x ≤ roundBinary p y := by
  rcases eq_or_lt_of_le hx with h | h
  · rw [← h, roundBinary_zero]; exact roundBinary_nonneg p hp (le_trans hx hxy)
  · have hy : 0 < y := lt_of_lt_of_le h hxy
    have hl : Int.log 2 x ≤ Int.log 2 y := Int.log_mono_right h hxy
    rcases eq_or_lt_of_le hl with hl | hl
    · unfold roundBinary
      rw [abs_of_pos h, abs_of_pos hy, hl]
      have hu := two_zpow_pos (Int.log 2 y + 1 - (p : ℤ))
      apply mul_le_mul_of_nonneg_right _ hu.le
      exact_mod_cast roundHalfEven_mono (div_le_div_of_nonneg_right hxy hu.le)
    · calc roundBinary p x ≤ 2 ^ (Int.log 2 x + 1) := (roundBinary_bounds p hp h).2
        _ ≤ 2 ^ Int.log 2 y := zpow_le_zpow_right₀ (by norm_num) (by omega)
        _ ≤ roundBinary p y := (roundBinary_bounds p hp hy).1

/-- A number `m * 2^k` with `0 < m < 2^p` is representable: rounding returns it. -/
theorem roundBinary_representable (p : ℕ) (m : ℕ) (k : ℤ) (hm0 : 0 < m) (hm : m < 2 ^ p) :
    roundBinary p ((m : ℚ) * 2 ^ k) = (m : ℚ) * 2 ^ k := by
  have hq : (0 : ℚ) < (m : ℚ) * 2 ^ k := mul_pos (by exact_mod_cast hm0) (two_zpow_pos k)
  have hlt : (m : ℚ) * 2 ^ k < 2 ^ ((p : ℤ) + k) := by
    rw [zpow_add₀ (by norm_num : (2 : ℚ) ≠ 0)]
    apply mul_lt_mul_of_pos_right _ (two_zpow_pos k)
    rw [zpow_natCast]; exact_mod_cast hm
  have hlog : Int.log 2 ((m : ℚ) * 2 ^ k) < (p : ℤ) + k :=
    (Int.lt_zpow_iff_log_lt (by norm_num) hq).1 (by exact_mod_cast hlt)
  unfold roundBinary
  rw [abs_of_pos hq]
  set e := Int.log 2 ((m : ℚ) * 2 ^ k) + 1 - (p : ℤ) with he
  obtain ⟨d, hd⟩ : ∃ d : ℕ, k = e + d := ⟨(k - e).toNat, by omega⟩
  have hdiv : (m : ℚ) * 2 ^ k / 2 ^ e = (((m : ℤ) * 2 ^ d : ℤ) : ℚ) := by
    rw [hd, zpow_add₀ (by norm_num : (2 : ℚ) ≠ 0), zpow_natCast]
    field_simp
    ring
  rw [hdiv, roundHalfEven_intCast, hd, zpow_add₀ (by norm_num : (2 : ℚ) ≠ 0), zpow_natCast]
  push_cast
  ring

theorem roundBinary_natCast (p : ℕ) (n : ℕ) (hn : n < 2 ^ p) :
    roundBinary p (n : ℚ) = n := by
  rcases Nat.eq_zero_or_pos n with h | h
  · subst h; simpa using roundBinary_zero p
  · simpa using roundBinary_representable p n 0 h hn

theorem roundBinary_one (p : ℕ) (hp : 1 ≤ p) : roundBinary p 1 = 1 := by
  have := roundBinary_natCast p 1 (Nat.one_lt_two_pow (by omega))
  simpa using this

/-- Rounding commutes with scaling by a power of two. -/
theorem roundBinary_mul_zpow (p : ℕ) (q : ℚ) (k : ℤ) (hq : 0 ≤ q) :
    roundBinary p (q * 2 ^ k) = roundBinary p q * 2 ^ k := by
  rcases eq_or_lt_of_le hq with h | h
  · rw [← h]; simp [roundBinary_zero]
  · have hk := two_zpow_pos k
    have hqk : 0 < q * 2 ^ k := mul_pos h hk
    have hlog : Int.log 2 (q * 2 ^ k) = Int.log 2 q + k := by
      apply log_eq_of_bounds
      · rw [zpow_add₀ (by norm_num : (2 : ℚ) ≠ 0)]
        exact mul_le_mul_of_nonneg_right (zpow_log_le h) hk.le
      · have : Int.log 2 q + k + 1 = (Int.log 2 q + 1) + k := by ring
        rw [this, zpow_add₀ (by norm_num : (2 : ℚ) ≠ 0)]
        exact mul_lt_mul_of_pos_right (lt_zpow_log_succ q) hk
    unfold roundBinary
    rw [abs_of_pos h, abs_of_pos hqk, hlog]
    have e1 : Int.log 2 q + k + 1 - (p : ℤ) = (Int.log 2 q + 1 - (p : ℤ)) + k := by ring
    rw [e1, zpow_add₀ (by norm_num : (2 : ℚ) ≠ 0)]
    have e2 : q * 2 ^ k / (2 ^ (Int.log 2 q + 1 - (p : ℤ)) * 2 ^ k)
        = q / 2 ^ (Int.log 2 q + 1 - (p : ℤ)) := by
      field_simp
      ring
    rw [e2]; ring

/-- The literal `2.3283064365386963e-10` denotes the double `2^-32`. -/
theorem vdcScale_eq : vdcScale = 1 / 4294967296 := by
  have hlog : Int.log 2 (|(23283064365386963 / 10 ^ 26 : ℚ)|) = -32 := by
    rw [abs_of_pos (by norm_num)]
    apply log_eq_of_bounds <;> norm_num
  unfold vdcScale f64 roundBinary
  rw [hlog]
  have hr : roundHalfEven ((23283064365386963 / 10 ^ 26 : ℚ) / 2 ^ ((-32 : ℤ) + 1 - ((53 : ℕ) : ℤ)))
      = 4503599627370496 := by
    unfold roundHalfEven
    have hf : ⌊((23283064365386963 / 10 ^ 26 : ℚ) / 2 ^ ((-32 : ℤ) + 1 - ((53 : ℕ) : ℤ)))⌋
        = 4503599627370496 := by
      rw [Int.floor_eq_iff]; norm_num
    rw [hf]; norm_num
  rw [hr]; norm_num

/-! ## The bit reversal -/

theorem word32_of_lt (b : Nat) (h : b < 4294967296) : Word32 b := fun m hm =>
  Nat.testBit_lt_two_pow (lt_of_lt_of_le h (by
    calc 4294967296 = 2 ^ 32 := by norm_num
      _ ≤ 2 ^ m := Nat.pow_le_pow_right (by norm_num) hm))

theorem lt_of_word32 (b : Nat) (h : Word32 b) : b < 4294967296 := by
  by_contra hb
  obtain ⟨m, hm, hbit⟩ := Nat.ge_two_pow_implies_high_bit_true (n := 32) (x := b) (by
    simpa using hb)
  rw [h m hm] at hbit
  cases hbit

theorem mask_bits (c k r : Nat) (hc : c < 4294967296)
    (h : ∀ m < 32, c.testBit m = decide ((m / k) % 2 = r)) (m : Nat) :
    c.testBit m = (decide (m < 32) && decide ((m / k) % 2 = r)) := by
  by_cases hm : m < 32
  · simp [hm, h m hm]
  · simp [hm, word32_of_lt c hc m (by omega)]

theorem testBit_swap (k mlo mhi b j : Nat) :
    ((((b &&& mlo) <<< k) % 4294967296) ||| ((b &&& mhi) >>> k)).testBit j
      = ((decide (j < 32) && (decide (k ≤ j) && (b.testBit (j - k) && mlo.testBit (j - k))))
          || (b.testBit (k + j) && mhi.testBit (k + j))) := by
  rw [show (4294967296 : Nat) = 2 ^ 32 by norm_num]
  simp only [Nat.testBit_or, Nat.testBit_and, Nat.testBit_shiftLeft, Nat.testBit_shiftRight,
      Nat.testBit_mod_two_pow, ge_iff_le]

theorem testBit_rot (b j : Nat) :
    (((b <<< 16) % 4294967296) ||| (b >>> 16)).testBit j
      = ((decide (j < 32) && (decide (16 ≤ j) && b.testBit (j - 16)))
          || b.testBit (16 + j)) := by
  rw [show (4294967296 : Nat) = 2 ^ 32 by norm_num]
  simp only [Nat.testBit_or, Nat.testBit_shiftLeft, Nat.testBit_shiftRight,
      Nat.testBit_mod_two_pow, ge_iff_le]

theorem stage_rot (b : Nat) (hb : Word32 b) (j : Nat) :
    (((b <<< 16) % 4294967296) ||| (b >>> 16)).testBit j
      = (decide (j < 32) && b.testBit (swapIdx 16 j)) := by
  rw [testBit_rot]
  have hb2 : ∀ m, 32 ≤ m → b.testBit m = false := hb
  by_cases hj : j < 32
  · interval_cases j <;> simp +decide [swapIdx, hb2]
  · have h1 : b.testBit (16 + j) = false := hb _ (by omega)
    simp [hj, h1]

theorem stage_swap (k mlo mhi : Nat) (hk : k = 1 ∨ k = 2 ∨ k = 4 ∨ k = 8)
    (hlo : ∀ m, mlo.testBit m = (decide (m < 32) && decide ((m / k) % 2 = 0)))
    (hhi : ∀ m, mhi.testBit m = (decide (m < 32) && decide ((m / k) % 2 = 1)))
    (b : Nat) (j : Nat) :
    ((((b &&& mlo) <<< k) % 4294967296) ||| ((b &&& mhi) >>> k)).testBit j
      = (decide (j < 32) && b.testBit (swapIdx k j)) := by
  rw [testBit_swap, hlo, hhi]
  by_cases hj : j < 32
  · rcases hk with rfl | rfl | rfl | rfl <;> interval_cases j <;> simp +decide [swapIdx]
  · have h1 : ¬ (k + j < 32) := by omega
    simp [hj, h1]

theorem stage1 (b j : Nat) :
    ((((b &&& 1431655765) <<< 1) % 4294967296) ||| ((b &&& 2863311530) >>> 1)).testBit j
      = (decide (j < 32) && b.testBit (swapIdx 1 j)) :=
  stage_swap 1 _ _ (by simp) (mask_bits _ 1 0 (by norm_num) (by decide))
    (mask_bits _ 1 1 (by norm_num) (by decide)) b j

theorem stage2 (b j : Nat) :
    ((((b &&& 858993459) <<< 2) % 4294967296) ||| ((b &&& 3435973836) >>> 2)).testBit j
      = (decide (j < 32) && b.testBit (swapIdx 2 j)) :=
  stage_swap 2 _ _ (by simp) (mask_bits _ 2 0 (by norm_num) (by decide))
    (mask_bits _ 2 1 (by norm_num) (by decide)) b j

theorem stage4 (b j : Nat) :
    ((((b &&& 252645135) <<< 4) % 4294967296) ||| ((b &&& 4042322160) >>> 4)).testBit j
      = (decide (j < 32) && b.testBit (swapIdx 4 j)) :=
  stage_swap 4 _ _ (by simp) (mask_bits _ 4 0 (by norm_num) (by decide))
    (mask_bits _ 4 1 (by norm_num) (by decide)) b j

theorem stage8 (b j : Nat) :
    ((((b &&& 16711935) <<< 8) % 4294967296) ||| ((b &&& 4278255360) >>> 8)).testBit j
      = (decide (j < 32) && b.testBit (swapIdx 8 j)) :=
  stage_swap 8 _ _ (by simp) (mask_bits _ 8 0 (by norm_num) (by decide))
    (mask_bits _ 8 1 (by norm_num) (by decide)) b j

theorem swapIdx_comp : ∀ j < 32,
    swapIdx 16 (swapIdx 1 (swapIdx 2 (swapIdx 4 (swapIdx 8 j)))) = 31 - j ∧
    swapIdx 1 (swapIdx 2 (swapIdx 4 (swapIdx 8 j))) < 32 ∧
    swapIdx 2 (swapIdx 4 (swapIdx 8 j)) < 32 ∧ swapIdx 4 (swapIdx 8 j) < 32 ∧
    swapIdx 8 j < 32 := by decide

/-- Bit `j` of the reversed word is bit `31 - j` of the input. -/
theorem RadicalInverse_bits_testBit (i : Nat) (hi : i < 4294967296) (j : Nat) (hj : j < 32) :
    (RadicalInverse_bits i).testBit j = i.testBit (31 - j) := by
  obtain ⟨h16, h1, h2, h4, h8⟩ := swapIdx_comp j hj
  unfold RadicalInverse_bits
  simp only [stage8, stage4, stage2, stage1, stage_rot _ (word32_of_lt i hi), hj, h1, h2, h4, h8,
    h16, decide_True, Bool.true_and]

/-- The reversed word fits in 32 bits. -/
theorem RadicalInverse_bits_lt (i : Nat) : RadicalInverse_bits i < 4294967296 := by
  apply lt_of_word32
  intro m hm
  unfold RadicalInverse_bits
  simp only [stage8]
  simp; omega

theorem mod_two_pow_eq_sum_bits (n k : Nat) :
    n % 2 ^ k = ∑ j in Finset.range k, (n.testBit j).toNat * 2 ^ j := by
  induction k with
  | zero => simp [Nat.mod_one]
  | succ k ih =>
    rw [Finset.sum_range_succ, ← ih, Nat.mod_pow_succ, Nat.toNat_testBit]
    ring

/-- The reversed word, as a sum over the bits of the input. -/
theorem RadicalInverse_bits_eq_sum (i : Nat) (hi : i < 4294967296) :
    RadicalInverse_bits i = ∑ j in Finset.range 32, (i.testBit j).toNat * 2 ^ (31 - j) := by
  have h := mod_two_pow_eq_sum_bits (RadicalInverse_bits i) 32
  rw [Nat.mod_eq_of_lt (by simpa using RadicalInverse_bits_lt i)] at h
  rw [h, ← Finset.sum_range_reflect]
  apply Finset.sum_congr rfl
  intro j hj
  have hj2 : j < 32 := Finset.mem_range.1 hj
  rw [RadicalInverse_bits_testBit i hi _ (by omega)]
  have e1 : 31 - (32 - 1 - j) = j := by omega
  have e2 : 32 - 1 - j = 31 - j := by omega
  rw [e1, e2]

/-- A rounded value is representable: rounding it again changes nothing. -/
theorem roundBinary_idem (p : ℕ) (hp : 1 ≤ p) {q : ℚ} (hq : 0 ≤ q) :
    roundBinary p (roundBinary p q) = roundBinary p q := by
  rcases eq_or_lt_of_le hq with h | h
  · rw [← h, roundBinary_zero, roundBinary_zero]
  · obtain ⟨h1, h2⟩ := significand_bounds p h
    have e1 : ((2 : ℚ) ^ ((p : ℤ) - 1)) = (((2 : ℤ) ^ (p - 1) : ℤ) : ℚ) := by
      have : (p : ℤ) - 1 = ((p - 1 : ℕ) : ℤ) := by omega
      rw [this, zpow_natCast]; push_cast; rfl
    have e2 : ((2 : ℚ) ^ (p : ℤ)) = (((2 : ℤ) ^ p : ℤ) : ℚ) := by
      rw [zpow_natCast]; push_cast; rfl
    have l1 : ((2 : ℤ) ^ (p - 1) : ℤ) ≤ roundHalfEven (q / 2 ^ (Int.log 2 q + 1 - (p : ℤ))) :=
      le_roundHalfEven (by rw [← e1]; exact h1)
    have l2 : roundHalfEven (q / 2 ^ (Int.log 2 q + 1 - (p : ℤ))) ≤ ((2 : ℤ) ^ p : ℤ) :=
      roundHalfEven_le (by rw [← e2]; exact h2.le)
    have hval : roundBinary p q
        = (roundHalfEven (q / 2 ^ (Int.log 2 q + 1 - (p : ℤ))) : ℚ)
            * 2 ^ (Int.log 2 q + 1 - (p : ℤ)) := by
      unfold roundBinary; rw [abs_of_pos h]
    have hpos : (0 : ℤ) < roundHalfEven (q / 2 ^ (Int.log 2 q + 1 - (p : ℤ))) :=
      lt_of_lt_of_le (by positivity) l1
    obtain ⟨m, hm⟩ : ∃ m : ℕ, roundHalfEven (q / 2 ^ (Int.log 2 q + 1 - (p : ℤ))) = (m : ℤ) :=
      ⟨_, (Int.toNat_of_nonneg hpos.le).symm⟩
    rw [hval, hm]
    rw [hm] at l2 hpos
    have hm0 : 0 < m := by exact_mod_cast hpos
    have hmle : m ≤ 2 ^ p := by exact_mod_cast l2
    rcases eq_or_lt_of_le hmle with hmp | hmp
    · have hsplit : (((m : ℤ) : ℚ)) * 2 ^ (Int.log 2 q + 1 - (p : ℤ))
          = ((2 ^ (p - 1) : ℕ) : ℚ) * 2 ^ (Int.log 2 q + 1 - (p : ℤ) + 1) := by
        rw [hmp, zpow_add₀ (by norm_num : (2 : ℚ) ≠ 0)]
        have : (2 : ℕ) ^ p = 2 ^ (p - 1) * 2 := by
          rw [← pow_succ]; congr 1; omega
        rw [this]; push_cast; ring
      rw [hsplit]
      exact roundBinary_representable p _ _ (by positivity)
        (Nat.pow_lt_pow_right (by norm_num) (by omega))
    · have := roundBinary_representable p m (Int.log 2 q + 1 - (p : ℤ)) hm0 hmp
      simpa using this

theorem f32_nonneg {q : ℚ} (hq : 0 ≤ q) : 0 ≤ f32 q := roundBinary_nonneg 24 (by norm_num) hq

theorem f32_mono {x y : ℚ} (hx : 0 ≤ x) (hxy : x ≤ y) : f32 x ≤ f32 y :=
  roundBinary_mono 24 (by norm_num) hx hxy

theorem f32_one : f32 1 = 1 := roundBinary_one 24 (by norm_num)

/-- `m * 2^k` with `m < 2^24` is a `float`. -/
theorem f32_representable (m : ℕ) (k : ℤ) (hm : m < 16777216) :
    f32 ((m : ℚ) * 2 ^ k) = (m : ℚ) * 2 ^ k := by
  rcases Nat.eq_zero_or_pos m with h | h
  · subst h; simpa using roundBinary_zero 24
  · exact roundBinary_representable 24 m k h (by simpa using hm)

theorem f32_natCast (n : ℕ) (hn : n ≤ 16777216) : f32 (n : ℚ) = n := by
  rcases eq_or_lt_of_le hn with h | h
  · subst h
    have := f32_representable 1 24 (by norm_num)
    norm_num at this
    simpa using this
  · simpa using f32_representable n 0 h

/-- The value returned by `RadicalInverse_VdC` in single precision: the reversed word,
rounded to a `float`, times `2^-32`. -/
theorem RadicalInverse_VdC_binary32 (i : Nat) :
    RadicalInverse_VdC binary32 i = f32 (RadicalInverse_bits i : ℚ) / 4294967296 := by
  have h0 : (0 : ℚ) ≤ (RadicalInverse_bits i : ℚ) := by positivity
  show f32 (f32 (((RadicalInverse_bits i : ℕ) : ℤ) : ℚ) * vdcScale) = _
  rw [vdcScale_eq]
  have e : (1 / 4294967296 : ℚ) = 2 ^ (-32 : ℤ) := by norm_num
  rw [e]
  unfold f32
  rw [roundBinary_mul_zpow 24 _ _ (roundBinary_nonneg 24 (by norm_num) (by simp)),
    roundBinary_idem 24 (by norm_num) (by simp)]
  norm_num
  ring

/-- The value returned by `RadicalInverse_VdC` in exact arithmetic. -/
theorem RadicalInverse_VdC_exactReal (i : Nat) :
    RadicalInverse_VdC exactReal.toFloatOps i = (RadicalInverse_bits i : ℝ) / 4294967296 := by
  show (((RadicalInverse_bits i : ℕ) : ℤ) : ℝ) * ((vdcScale : ℚ) : ℝ) = _
  rw [vdcScale_eq]
  push_cast
  ring

/-- For an index below `2^24` the reversed word is a multiple of 256. -/
theorem RadicalInverse_bits_low (i : Nat) (hi : i < 16777216) :
    RadicalInverse_bits i % 256 = 0 := by
  have h := mod_two_pow_eq_sum_bits (RadicalInverse_bits i) 8
  rw [show (2 : ℕ) ^ 8 = 256 by norm_num] at h
  rw [h]
  apply Finset.sum_eq_zero
  intro j hj
  have hj8 : j < 8 := Finset.mem_range.1 hj
  rw [RadicalInverse_bits_testBit i (by omega) j (by omega)]
  have : i.testBit (31 - j) = false := by
    apply Nat.testBit_lt_two_pow
    calc i < 2 ^ 24 := by simpa using hi
      _ ≤ 2 ^ (31 - j) := Nat.pow_le_pow_right (by norm_num) (by omega)
  simp [this]

/-- For an index below `2^24` the reversed word converts to `float` without rounding. -/
theorem f32_RadicalInverse_bits (i : Nat) (hi : i < 16777216) :
    f32 (RadicalInverse_bits i : ℚ) = RadicalInverse_bits i := by
  have h1 := RadicalInverse_bits_low i hi
  have h2 := RadicalInverse_bits_lt i
  obtain ⟨m, hm⟩ : ∃ m, RadicalInverse_bits i = 256 * m := ⟨_, (Nat.eq_mul_of_div_eq_right
    (Nat.dvd_of_mod_eq_zero h1) rfl)⟩
  rw [hm]
  have := f32_representable m 8 (by omega)
  norm_num at this
  push_cast
  rw [mul_comm]
  exact this

/-! ## The radical inverse (C2) -/

theorem roundBinary_eq (p : ℕ) {q : ℚ} (e : ℤ) (h1 : (2 : ℚ) ^ e ≤ q) (h2 : q < 2 ^ (e + 1)) :
    roundBinary p q = roundHalfEven (q / 2 ^ (e + 1 - (p : ℤ))) * 2 ^ (e + 1 - (p : ℤ)) := by
  have hq : 0 < q := lt_of_lt_of_le (two_zpow_pos e) h1
  unfold roundBinary
  rw [abs_of_pos hq, log_eq_of_bounds h1 h2]

/-- Rounding up: `t` lies above the midpoint below the integer `n`. -/
theorem roundHalfEven_eq_of_gt {t : ℚ} (n : ℤ) (h1 : (n : ℚ) - 1 / 2 < t) (h2 : t ≤ n) :
    roundHalfEven t = n :=
  le_antisymm (roundHalfEven_le h2) (by
    rcases eq_or_lt_of_le h2 with h | h
    · rw [h, roundHalfEven_intCast]
    · have hf : ⌊t⌋ = n - 1 := by
        rw [Int.floor_eq_iff]; push_cast; constructor <;> linarith
      unfold roundHalfEven
      rw [hf]; push_cast
      rw [if_neg (by linarith), if_pos (by linarith)]
      omega)

/-- A tie above an odd integer goes up, to the even neighbour. -/
theorem roundHalfEven_tie_odd (n : ℤ) (hn : n % 2 = 1) :
    roundHalfEven ((n : ℚ) + 1 / 2) = n + 1 := by
  have hf : ⌊(n : ℚ) + 1 / 2⌋ = n := by
    rw [Int.floor_eq_iff]; constructor <;> linarith
  unfold roundHalfEven
  rw [hf, if_neg (by linarith), if_neg (by linarith), if_neg (by omega)]

/-- `float(4294967295u)` is `4294967296.0f`. -/
theorem f32_uint_max : f32 4294967295 = 4294967296 := by
  unfold f32
  rw [roundBinary_eq 24 31 (by norm_num) (by norm_num),
    roundHalfEven_eq_of_gt 16777216 (by norm_num) (by norm_num)]
  norm_num

/-- C2 (counterexample): for `i = 4294967295` the reversed word is `4294967295`, and the
value returned in single precision is `1`, not `4294967295 / 2^32`. -/
theorem RadicalInverse_VdC_not_scaled :
    RadicalInverse_bits 4294967295 = 4294967295 ∧
    RadicalInverse_VdC binary32 4294967295 = 1 ∧
    RadicalInverse_VdC binary32 4294967295
      ≠ ((RadicalInverse_bits 4294967295 : ℕ) : ℚ) / 4294967296 := by
  have hb : RadicalInverse_bits 4294967295 = 4294967295 := by decide
  have hv : RadicalInverse_VdC binary32 4294967295 = 1 := by
    rw [RadicalInverse_VdC_binary32, hb]
    have := f32_uint_max
    push_cast
    rw [this]; norm_num
  refine ⟨hb, hv, ?_⟩
  rw [hv, hb]; norm_num

theorem bits_sum_cast {K : Type} [Field K] [CharZero K] (i : Nat) (hi : i < 4294967296) :
    ((RadicalInverse_bits i : ℕ) : K) / 4294967296
      = ∑ j in Finset.range 32, ((i.testBit j).toNat : K) / 2 ^ (j + 1) := by
  rw [RadicalInverse_bits_eq_sum i hi]
  push_cast
  rw [Finset.sum_div]
  apply Finset.sum_congr rfl
  intro j hj
  have hj2 : j < 32 := Finset.mem_range.1 hj
  have : (4294967296 : K) = 2 ^ (31 - j) * 2 ^ (j + 1) := by
    rw [← pow_add, show 31 - j + (j + 1) = 32 by omega]; norm_num
  rw [this]
  field_simp
  ring

/-- C2 (amended): the five shift/mask/OR steps reverse the 32 bits of `i`; the value
returned is the reversed word rounded to a `float` and scaled by `2^-32`; for `i < 2^24`
no rounding occurs and the value is the reversed word scaled by `1/2^32`, the base-2
Van der Corput sum of `bit_j(i) * 2^-(j+1)`; in exact arithmetic that holds for every `i`. -/
theorem RadicalInverse_VdC_bit_reversal (i : Nat) (hi : i < 4294967296) :
    (∀ j, j < 32 → (RadicalInverse_bits i).testBit j = i.testBit (31 - j)) ∧
    RadicalInverse_VdC binary32 i = f32 (RadicalInverse_bits i : ℚ) / 4294967296 ∧
    (i < 16777216 →
      RadicalInverse_VdC binary32 i = ((RadicalInverse_bits i : ℕ) : ℚ) / 4294967296 ∧
      RadicalInverse_VdC binary32 i
        = ∑ j in Finset.range 32, ((i.testBit j).toNat : ℚ) / 2 ^ (j + 1)) ∧
    RadicalInverse_VdC exactReal.toFloatOps i = ((RadicalInverse_bits i : ℕ) : ℝ) / 4294967296 ∧
    RadicalInverse_VdC exactReal.toFloatOps i
      = ∑ j in Finset.range 32, ((i.testBit j).toNat : ℝ) / 2 ^ (j + 1) := by
  refine ⟨fun j hj => RadicalInverse_bits_testBit i hi j hj, RadicalInverse_VdC_binary32 i,
    fun h24 => ?_, RadicalInverse_VdC_exactReal i, ?_⟩
  · have h : RadicalInverse_VdC binary32 i = ((RadicalInverse_bits i : ℕ) : ℚ) / 4294967296 := by
      rw [RadicalInverse_VdC_binary32, f32_RadicalInverse_bits i h24]
    exact ⟨h, by rw [h, bits_sum_cast i hi]⟩
  · rw [RadicalInverse_VdC_exactReal, bits_sum_cast i hi]

/-- C2 (witness): index 1 reverses to `2^31`, and the value returned is `1/2`. -/
theorem RadicalInverse_VdC_bit_reversal_witness :
    (1 : ℕ) < 4294967296 ∧ RadicalInverse_bits 1 = 2147483648 ∧
      RadicalInverse_VdC binary32 1 = 1 / 2 := by
  have hb : RadicalInverse_bits 1 = 2147483648 := by decide
  have h := ((RadicalInverse_VdC_bit_reversal 1 (by norm_num)).2.2.1 (by norm_num)).1
  rw [hb] at h
  exact ⟨by norm_num, hb, by rw [h]; norm_num⟩

/-! ## The Hammersley point (C8, C9) -/

theorem Hammersley_binary32_x (i N : Nat) :
    (Hammersley binary32 i N).x = f32 (f32 (i : ℚ) / f32 (N : ℚ)) := by
  show f32 (f32 (((i : ℕ) : ℤ) : ℚ) / f32 (((N : ℕ) : ℤ) : ℚ)) = _
  simp

theorem Hammersley_binary32_y (i N : Nat) :
    (Hammersley binary32 i N).y = f32 (RadicalInverse_bits i : ℚ) / 4294967296 :=
  RadicalInverse_VdC_binary32 i

/-- A tie below `2^25`: `float(33554431)` is `33554432.0f`. -/
theorem f32_33554431 : f32 33554431 = 33554432 := by
  unfold f32
  rw [roundBinary_eq 24 24 (by norm_num) (by norm_num)]
  have h := roundHalfEven_tie_odd 16777215 (by norm_num)
  have e : (33554431 : ℚ) / 2 ^ ((24 : ℤ) + 1 - ((24 : ℕ) : ℤ)) = ((16777215 : ℤ) : ℚ) + 1 / 2 := by
    norm_num
  rw [e, h]; norm_num

/-- A tie below `2^32`: `float(4294967168u)` is `4294967296.0f`. -/
theorem f32_4294967168 : f32 4294967168 = 4294967296 := by
  unfold f32
  rw [roundBinary_eq 24 31 (by norm_num) (by norm_num)]
  have h := roundHalfEven_tie_odd 16777215 (by norm_num)
  have e : (4294967168 : ℚ) / 2 ^ ((31 : ℤ) + 1 - ((24 : ℕ) : ℤ)) = ((16777215 : ℤ) : ℚ) + 1 / 2 := by
    norm_num
  rw [e, h]; norm_num

/-- C8 (counterexample): with `N = 33554432 = 2^25` samples, the last index
`i = 33554431` gives the point `(1, 1)`: neither coordinate is below 1. -/
theorem Hammersley_reaches_one :
    (33554431 : ℕ) < 33554432 ∧ (33554432 : ℕ) < 4294967296 ∧
    (Hammersley binary32 33554431 33554432).x = 1 ∧
    (Hammersley binary32 33554431 33554432).y = 1 := by
  refine ⟨by norm_num, by norm_num, ?_, ?_⟩
  · rw [Hammersley_binary32_x]
    have h1 : f32 ((33554431 : ℕ) : ℚ) = 33554432 := by exact_mod_cast f32_33554431
    have h2 : f32 ((33554432 : ℕ) : ℚ) = 33554432 := by
      have := f32_representable 1 25 (by norm_num)
      norm_num at this
      exact_mod_cast this
    rw [h1, h2]
    norm_num
    exact f32_one
  · rw [Hammersley_binary32_y]
    have hb : RadicalInverse_bits 33554431 = 4294967168 := by decide
    rw [hb]
    have := f32_4294967168
    push_cast
    rw [this]; norm_num

theorem f32_pos_of_one_le {q : ℚ} (hq : 1 ≤ q) : 1 ≤ f32 q := by
  have := f32_mono (by norm_num : (0 : ℚ) ≤ 1) hq
  rwa [f32_one] at this

theorem f32_le_one {q : ℚ} (h0 : 0 ≤ q) (h1 : q ≤ 1) : f32 q ≤ 1 := by
  have := f32_mono h0 h1
  rwa [f32_one] at this

theorem RadicalInverse_VdC_exactReal_range (i : Nat) :
    0 ≤ RadicalInverse_VdC exactReal.toFloatOps i ∧
      RadicalInverse_VdC exactReal.toFloatOps i < 1 := by
  rw [RadicalInverse_VdC_exactReal]
  have h : ((RadicalInverse_bits i : ℕ) : ℝ) < 4294967296 := by
    exact_mod_cast RadicalInverse_bits_lt i
  constructor
  · positivity
  · rw [div_lt_one (by norm_num)]; exact h

/-- C8 (amended): for a 32-bit sample count `N ≥ 1` and an index `i < N`, both coordinates
of `Hammersley(i, N)`, namely `float(i) / float(N)` and `float(reversed bits) * 2^-32`,
lie in the closed interval `[0, 1]`; they lie in `[0, 1)` whenever `N ≤ 2^24`, and for
every `N` when the point is evaluated in exact arithmetic. -/
theorem Hammersley_range (N i : Nat) (hN : 1 ≤ N) (hN32 : N < 4294967296) (hi : i < N) :
    ((Hammersley binary32 i N).x = f32 (f32 (i : ℚ) / f32 (N : ℚ)) ∧
      (Hammersley binary32 i N).y = f32 (RadicalInverse_bits i : ℚ) / 4294967296) ∧
    (0 ≤ (Hammersley binary32 i N).x ∧ (Hammersley binary32 i N).x ≤ 1 ∧
      0 ≤ (Hammersley binary32 i N).y ∧ (Hammersley binary32 i N).y ≤ 1) ∧
    (N ≤ 16777216 → (Hammersley binary32 i N).x < 1 ∧ (Hammersley binary32 i N).y < 1) ∧
    (0 ≤ (Hammersley exactReal.toFloatOps i N).x ∧ (Hammersley exactReal.toFloatOps i N).x < 1 ∧
      0 ≤ (Hammersley exactReal.toFloatOps i N).y ∧
      (Hammersley exactReal.toFloatOps i N).y < 1) := by
  have hi0 : (0 : ℚ) ≤ (i : ℚ) := by positivity
  have hiN : (i : ℚ) ≤ (N : ℚ) := by exact_mod_cast hi.le
  have hN1 : (1 : ℚ) ≤ (N : ℚ) := by exact_mod_cast hN
  have hfN : 1 ≤ f32 (N : ℚ) := f32_pos_of_one_le hN1
  have hfi : 0 ≤ f32 (i : ℚ) := f32_nonneg hi0
  have hfiN : f32 (i : ℚ) ≤ f32 (N : ℚ) := f32_mono hi0 hiN
  have hq0 : 0 ≤ f32 (i : ℚ) / f32 (N : ℚ) := div_nonneg hfi (by linarith)
  have hq1 : f32 (i : ℚ) / f32 (N : ℚ) ≤ 1 := by
    rw [div_le_one (by linarith)]; exact hfiN
  have hr0 : (0 : ℚ) ≤ (RadicalInverse_bits i : ℚ) := by positivity
  have hr1 : ((RadicalInverse_bits i : ℕ) : ℚ) ≤ 4294967296 := by
    exact_mod_cast (RadicalInverse_bits_lt i).le
  have hfr : f32 (RadicalInverse_bits i : ℚ) ≤ 4294967296 := by
    have := f32_mono hr0 hr1
    have h2 := f32_representable 1 32 (by norm_num)
    norm_num at h2
    rwa [h2] at this
  refine ⟨⟨Hammersley_binary32_x i N, Hammersley_binary32_y i N⟩, ?_, ?_, ?_⟩
  · rw [Hammersley_binary32_x, Hammersley_binary32_y]
    refine ⟨f32_nonneg hq0, f32_le_one hq0 hq1, ?_, ?_⟩
    · exact div_nonneg (f32_nonneg hr0) (by norm_num)
    · rw [div_le_one (by norm_num)]; exact hfr
  · intro h24
    rw [Hammersley_binary32_x, Hammersley_binary32_y]
    constructor
    · rw [f32_natCast i (by omega), f32_natCast N h24]
      have hNpos : (0 : ℚ) < N := by linarith
      have hbound : (i : ℚ) / N ≤ ((16777215 : ℕ) : ℚ) * 2 ^ (-24 : ℤ) := by
        rw [div_le_iff₀ hNpos]
        have h1 : (i : ℚ) + 1 ≤ N := by exact_mod_cast hi
        have h2 : (N : ℚ) ≤ 16777216 := by exact_mod_cast h24
        norm_num
        linarith
      have := f32_mono (div_nonneg hi0 hNpos.le) hbound
      rw [f32_representable 16777215 (-24) (by norm_num)] at this
      calc f32 ((i : ℚ) / N) ≤ ((16777215 : ℕ) : ℚ) * 2 ^ (-24 : ℤ) := this
        _ < 1 := by norm_num
    · rw [f32_RadicalInverse_bits i (by omega), div_lt_one (by norm_num)]
      exact_mod_cast RadicalInverse_bits_lt i
  · have hNpos : (0 : ℝ) < N := by exact_mod_cast hN
    have hx : (Hammersley exactReal.toFloatOps i N).x = (i : ℝ) / N := by
      show (((i : ℕ) : ℤ) : ℝ) / (((N : ℕ) : ℤ) : ℝ) = _
      simp
    refine ⟨?_, ?_, (RadicalInverse_VdC_exactReal_range i).1,
      (RadicalInverse_VdC_exactReal_range i).2⟩
    · rw [hx]; positivity
    · rw [hx, div_lt_one hNpos]; exact_mod_cast hi

/-- C8 (witness): the default sample count, `N = 1024`, at index `i = 1023`. -/
theorem Hammersley_range_witness :
    (Hammersley binary32 1023 1024).x < 1 ∧ (Hammersley binary32 1023 1024).y < 1 :=
  (Hammersley_range 1024 1023 (by norm_num) (by norm_num) (by norm_num)).2.2.1 (by norm_num)

/-- C9: `Hammersley(i, N)` is the pair of `float(i) / float(N)` and `RadicalInverse_VdC(i)`,
whatever the arithmetic: a function of its two arguments alone.  In exact arithmetic
the first coordinate is the rational `i / N`; in single precision, for `N ≤ 2^24`, it is
`i / N` rounded once to a `float`. -/
theorem Hammersley_eq (N i : Nat) (hN : 1 ≤ N) (hi : i < N) :
    (∀ (F : Type) (A : FloatOps F),
      Hammersley A i N = ⟨A.div (A.ofInt i) (A.ofInt N), RadicalInverse_VdC A i⟩) ∧
    (Hammersley exactReal.toFloatOps i N).x = (i : ℝ) / (N : ℝ) ∧
    (Hammersley exactReal.toFloatOps i N).y = RadicalInverse_VdC exactReal.toFloatOps i ∧
    (N ≤ 16777216 → (Hammersley binary32 i N).x = f32 ((i : ℚ) / (N : ℚ))) ∧
    (Hammersley binary32 i N).y = RadicalInverse_VdC binary32 i := by
  refine ⟨fun F A => rfl, ?_, rfl, fun h24 => ?_, rfl⟩
  · show (((i : ℕ) : ℤ) : ℝ) / (((N : ℕ) : ℤ) : ℝ) = _
    simp
  · rw [Hammersley_binary32_x, f32_natCast i (by omega), f32_natCast N h24]

/-- C9 (witness): the second of three samples. -/
theorem Hammersley_eq_witness :
    (Hammersley exactReal.toFloatOps 1 3).x = (1 : ℝ) / 3 ∧
      (Hammersley binary32 1 3).x = f32 (1 / 3) := by
  have h := Hammersley_eq 3 1 (by norm_num) (by norm_num)
  refine ⟨by simpa using h.2.1, by simpa using h.2.2.2.1 (by norm_num)⟩

/-! ## The program in exact arithmetic -/

@[simp] theorem exactReal_lit (q : ℚ) : exactReal.lit q = (q : ℝ) := rfl
@[simp] theorem exactReal_ofInt (n : ℤ) : exactReal.ofInt n = (n : ℝ) := rfl
@[simp] theorem exactReal_add (x y : ℝ) : exactReal.add x y = x + y := rfl
@[simp] theorem exactReal_sub (x y : ℝ) : exactReal.sub x y = x - y := rfl
@[simp] theorem exactReal_mul (x y : ℝ) : exactReal.mul x y = x * y := rfl
@[simp] theorem exactReal_div (x y : ℝ) : exactReal.div x y = x / y := rfl
@[simp] theorem exactReal_lt (x y : ℝ) : exactReal.lt x y = decide (x < y) := rfl
@[simp] theorem exactReal_sqrt (x : ℝ) : exactReal.sqrt x = Real.sqrt x := rfl
@[simp] theorem exactReal_cos (x : ℝ) : exactReal.cos x = Real.cos x := rfl
@[simp] theorem exactReal_sin (x : ℝ) : exactReal.sin x = Real.sin x := rfl
@[simp] theorem exactReal_abs (x : ℝ) : exactReal.abs x = |x| := rfl
@[simp] theorem exactReal_pow (x y : ℝ) : exactReal.pow x y = x ^ y := rfl

/-! ## The geometry term (C4) -/

/-- C4: `GeometrySchlickGGX` is `G1(x) = x / (x * (1 - k) + k)` with `k = roughness^2 / 2`,
and `GeometrySmith(roughness, NoV, NoL) = G1(NoV) * G1(NoL)`, both factors with the
same `k`. -/
theorem GeometrySmith_eq (roughness NoV NoL : ℝ) :
    (∀ x : ℝ, GeometrySchlickGGX exactReal.toFloatOps x roughness = G1 (roughness ^ 2 / 2) x) ∧
    GeometrySmith exactReal.toFloatOps roughness NoV NoL
      = G1 (roughness ^ 2 / 2) NoV * G1 (roughness ^ 2 / 2) NoL := by
  have h : ∀ x : ℝ, GeometrySchlickGGX exactReal.toFloatOps x roughness
      = G1 (roughness ^ 2 / 2) x := by
    intro x
    simp [GeometrySchlickGGX, G1, pow_two]
  refine ⟨h, ?_⟩
  unfold GeometrySmith
  simp only [h, exactReal_mul]
  ring

/-! ## The pixel loop (C5, C6) -/

theorem pixelParams_exactReal (S x y : Int) :
    pixelParams exactReal.toFloatOps S x y
      = (((y : ℝ) + 1 / 2) / (S : ℝ), ((x : ℝ) + 1 / 2) / (S : ℝ)) := by
  simp [pixelParams, div_eq_mul_inv]

theorem cell_centre_bounds (S : Int) (x : Nat) (hS : 1 ≤ S) (hx : (x : Int) < S) :
    0 < (((x : ℕ) : ℝ) + 1 / 2) / (S : ℝ) ∧ (((x : ℕ) : ℝ) + 1 / 2) / (S : ℝ) < 1 := by
  have hSpos : (0 : ℝ) < (S : ℝ) := by exact_mod_cast (by omega : (0 : Int) < S)
  have hx1 : ((x : ℕ) : ℝ) + 1 ≤ (S : ℝ) := by exact_mod_cast (by omega : (x : Int) + 1 ≤ S)
  constructor
  · positivity
  · rw [div_lt_one hSpos]; linarith

theorem pixelStores_mem_lutStores {F : Type} (A : MathOps F) (S bits n : Int) (x y : Nat)
    (hx : (x : Int) < S) (hy : (y : Int) < S) (st : Store F)
    (h : st ∈ pixelStores A S bits n y x) : st ∈ lutStores A S bits n := by
  unfold lutStores
  rw [List.mem_flatMap]
  refine ⟨y, List.mem_range.2 (by omega), ?_⟩
  rw [List.mem_flatMap]
  exact ⟨x, List.mem_range.2 (by omega), h⟩

/-- C5: for an edge size `S ≥ 1` and a pixel `(x, y)` of the grid, the loop body calls
`IntegrateBRDF` with `NdotV = (y + 0.5) / S` and `roughness = (x + 0.5) / S` (exact
arithmetic), both strictly between 0 and 1, and the loops of `main` reach that pixel. -/
theorem pixel_loop_cell_centre (S bits n : Int) (x y : Nat) (hS : 1 ≤ S)
    (hx : (x : Int) < S) (hy : (y : Int) < S) :
    pixelParams exactReal.toFloatOps S x y
      = (((y : ℝ) + 1 / 2) / (S : ℝ), ((x : ℝ) + 1 / 2) / (S : ℝ)) ∧
    (0 < ((y : ℝ) + 1 / 2) / (S : ℝ) ∧ ((y : ℝ) + 1 / 2) / (S : ℝ) < 1 ∧
      0 < ((x : ℝ) + 1 / 2) / (S : ℝ) ∧ ((x : ℝ) + 1 / 2) / (S : ℝ) < 1) ∧
    pixelStores exactReal S bits n y x
      = (if bits = 16 then
          [⟨y, S - 1 - x, .half (IntegrateBRDF exactReal (((y : ℝ) + 1 / 2) / (S : ℝ))
            (((x : ℝ) + 1 / 2) / (S : ℝ)) (toUInt32 n))⟩]
        else []) ++
        (if bits = 32 then
          [⟨y, S - 1 - x, .full (IntegrateBRDF exactReal (((y : ℝ) + 1 / 2) / (S : ℝ))
            (((x : ℝ) + 1 / 2) / (S : ℝ)) (toUInt32 n))⟩]
        else []) ∧
    (∀ st ∈ pixelStores exactReal S bits n y x, st ∈ lutStores exactReal S bits n) := by
  have hp := pixelParams_exactReal S x y
  refine ⟨by simpa using hp, ⟨(cell_centre_bounds S y hS hy).1, (cell_centre_bounds S y hS hy).2,
    (cell_centre_bounds S x hS hx).1, (cell_centre_bounds S x hS hx).2⟩, ?_,
    fun st h => pixelStores_mem_lutStores exactReal S bits n x y hx hy st h⟩
  unfold pixelStores
  rw [hp]
  simp

/-- C5 (witness): pixel `(x, y) = (0, 3)` of a table of edge 4. -/
theorem pixel_loop_cell_centre_witness :
    pixelParams exactReal.toFloatOps 4 (0 : ℕ) (3 : ℕ)
      = ((((3 : ℕ) : ℝ) + 1 / 2) / ((4 : ℤ) : ℝ), (((0 : ℕ) : ℝ) + 1 / 2) / ((4 : ℤ) : ℝ)) :=
  (pixel_loop_cell_centre 4 16 1024 0 3 (by norm_num) (by norm_num) (by norm_num)).1

/-! ## Option validation (C10) -/

theorem optionStep_valid (longMax : Int) (o o2 : Options) (arg : String) (next : Option String)
    (ho : ValidOptions o) (h : optionStep longMax o arg next = .ok o2) : ValidOptions o2 := by
  unfold optionStep at h
  cases next with
  | none => simp only [Except.ok.injEq] at h; subst h; exact ho
  | some v =>
    simp only at h
    obtain ⟨h1, h2, h3⟩ := ho
    split_ifs at h <;> simp only [Except.ok.injEq, reduceCtorEq] at h <;> subst h <;>
      refine ⟨?_, ?_, ?_⟩ <;> dsimp only <;> first
        | assumption
        | (simp only [not_or, not_and, not_lt, ne_eq, not_not, gt_iff_lt] at *; omega)

theorem optionLoop_valid (longMax : Int) (args : List String) :
    ∀ o o2 : Options, ValidOptions o → optionLoop longMax o args = .ok o2 → ValidOptions o2 := by
  induction args with
  | nil =>
    intro o o2 ho h
    simp only [optionLoop, Except.ok.injEq] at h
    subst h; exact ho
  | cons arg rest ih =>
    intro o o2 ho h
    simp only [optionLoop] at h
    cases hstep : optionStep longMax o arg rest.head? with
    | error msg => rw [hstep] at h; simp at h
    | ok o3 =>
      rw [hstep] at h
      exact ih o3 o2 (optionStep_valid longMax o o3 arg _ ho hstep) h

/-- A run that passes the command-line checks has `samples ≥ 0`, `size ≥ 0` and
`bits ∈ {16, 32}`. -/
theorem parseArgs_valid (longMax : Int) (argv : List String) (o : Options)
    (h : parseArgs longMax argv = .ok o) : ValidOptions o := by
  unfold parseArgs at h
  split_ifs at h
  cases hloop : optionLoop longMax defaultOptions argv.tail with
  | error msg => rw [hloop] at h; simp at h
  | ok o2 =>
    rw [hloop] at h
    simp only at h
    split_ifs at h
    simp only [Except.ok.injEq] at h
    subst h
    exact optionLoop_valid longMax _ _ _ ⟨by decide, by decide, by decide⟩ hloop

theorem parseArgs_of_toOption (longMax : Int) (argv : List String) (o : Options)
    (h : (parseArgs longMax argv).toOption = some o) : parseArgs longMax argv = .ok o := by
  cases hp : parseArgs longMax argv with
  | error msg => rw [hp] at h; simp [Except.toOption] at h
  | ok o2 => rw [hp] at h; simp only [Except.toOption, Option.some.injEq] at h; rw [h]

/-- C10 (failing input): `-n 0` passes the validation, as does `-s 0`: `main` goes on to
build the table with `samples = 0` (or `size = 0`), whatever the width of `long`. -/
theorem main_accepts_zero :
    (parseArgs 2147483647 ["BRDFGenerator", "-f", "lut.dds", "-n", "0"]).toOption.map
        (fun o => (o.samples, o.size, o.bits, o.filename)) = some (0, 128, 16, "lut.dds") ∧
    (parseArgs 9223372036854775807 ["BRDFGenerator", "-f", "lut.dds", "-n", "0"]).toOption.map
        (fun o => (o.samples, o.size, o.bits, o.filename)) = some (0, 128, 16, "lut.dds") ∧
    (parseArgs 2147483647 ["BRDFGenerator", "-f", "lut.dds", "-s", "0"]).toOption.map
        (fun o => (o.samples, o.size, o.bits, o.filename)) = some (1024, 0, 16, "lut.dds") ∧
    (main exactReal 2147483647 ["BRDFGenerator", "-f", "lut.dds", "-n", "0"]).toOption.map
        (fun r => (r.1.samples, toUInt32 r.1.samples)) = some (0, 0) := by
  refine ⟨by decide, by decide, by decide, ?_⟩
  have h : parseArgs 2147483647 ["BRDFGenerator", "-f", "lut.dds", "-n", "0"]
      = .ok ⟨0, 128, 16, "lut.dds", 0⟩ := parseArgs_of_toOption _ _ _ (by decide)
  simp only [main, h, Except.toOption, Option.map_some']
  decide

theorem filter_flatMap_range_nil {α : Type} (n : Nat) (f : Nat → List α) (p : α → Bool)
    (h : ∀ i, i < n → (f i).filter p = []) : ((List.range n).flatMap f).filter p = [] := by
  rw [List.filter_eq_nil_iff]
  intro a ha
  obtain ⟨i, hi, hai⟩ := List.mem_flatMap.1 ha
  exact (List.filter_eq_nil_iff.1 (h i (List.mem_range.1 hi))) a hai

/-- Filtering the concatenation of `f 0, ..., f (n - 1)` when only `f k` has elements that
pass the filter. -/
theorem filter_flatMap_range_single {α : Type} (n k : Nat) (hk : k < n) (f : Nat → List α)
    (p : α → Bool) (h : ∀ i, i < n → i ≠ k → (f i).filter p = []) :
    ((List.range n).flatMap f).filter p = (f k).filter p := by
  induction n with
  | zero => omega
  | succ n ih =>
    rw [List.range_succ, List.flatMap_append, List.filter_append]
    simp only [List.flatMap_cons, List.flatMap_nil, List.append_nil]
    rcases Nat.lt_succ_iff_lt_or_eq.1 hk with hlt | heq
    · rw [ih hlt (fun i hi hne => h i (by omega) hne), h n (by omega) (by omega),
        List.append_nil]
    · subst heq
      rw [filter_flatMap_range_nil k f p (fun i hi => h i (by omega) (by omega)),
        List.nil_append]

theorem pixelStores_coord {F : Type} (A : MathOps F) (S bits n : Int) (x y : Nat)
    (st : Store F) (h : st ∈ pixelStores A S bits n y x) :
    st.column = y ∧ st.row = S - 1 - x := by
  unfold pixelStores at h
  rw [List.mem_append] at h
  rcases h with h | h <;> split_ifs at h <;> simp at h <;> subst h <;> exact ⟨rfl, rfl⟩

theorem filter_pixelStores {F : Type} (A : MathOps F) (S bits n : Int) (x y : Nat)
    (hb : bits = 16 ∨ bits = 32) :
    (pixelStores A S bits n y x).filter
        (fun st => decide (st.column = (y : Int) ∧ st.row = S - 1 - (x : Int)))
      = [⟨y, S - 1 - x,
          if bits = 16 then
            .half (IntegrateBRDF A (pixelParams A.toFloatOps S x y).1
              (pixelParams A.toFloatOps S x y).2 (toUInt32 n))
          else
            .full (IntegrateBRDF A (pixelParams A.toFloatOps S x y).1
              (pixelParams A.toFloatOps S x y).2 (toUInt32 n))⟩] := by
  unfold pixelStores
  rcases hb with hb | hb <;> subst hb <;> simp

/-- The store that lands on texel `(c, r)`, for any interpretation of the arithmetic. -/
theorem filter_lutStores {F : Type} (A : MathOps F) (S bits n : Int) (hb : bits = 16 ∨ bits = 32)
    (c r : Int) (hc0 : 0 ≤ c) (hc : c < S) (hr0 : 0 ≤ r) (hr : r < S) :
    (lutStores A S bits n).filter (fun st => decide (st.column = c ∧ st.row = r))
      = [⟨c, r,
          if bits = 16 then
            .half (IntegrateBRDF A (pixelParams A.toFloatOps S (S - 1 - r) c).1
              (pixelParams A.toFloatOps S (S - 1 - r) c).2 (toUInt32 n))
          else
            .full (IntegrateBRDF A (pixelParams A.toFloatOps S (S - 1 - r) c).1
              (pixelParams A.toFloatOps S (S - 1 - r) c).2 (toUInt32 n))⟩] := by
  obtain ⟨y, rfl⟩ : ∃ y : ℕ, c = y := ⟨c.toNat, (Int.toNat_of_nonneg hc0).symm⟩
  obtain ⟨x, hx⟩ : ∃ x : ℕ, S - 1 - r = x := ⟨(S - 1 - r).toNat, (Int.toNat_of_nonneg (by omega)).symm⟩
  have hr2 : r = S - 1 - x := by omega
  subst hr2
  unfold lutStores
  rw [filter_flatMap_range_single S.toNat y (by omega)]
  · rw [filter_flatMap_range_single S.toNat x (by omega)]
    · have := filter_pixelStores A S bits n x y hb
      rw [show S - 1 - (S - 1 - (x : Int)) = (x : Int) by ring]
      exact this
    · intro i _ hne
      rw [List.filter_eq_nil_iff]
      intro st hst
      have := (pixelStores_coord A S bits n i y st hst).2
      simp only [decide_eq_true_eq, not_and]
      intro _ h2
      apply hne
      omega
  · intro i _ hne
    apply filter_flatMap_range_nil
    intro j _
    rw [List.filter_eq_nil_iff]
    intro st hst
    have := (pixelStores_coord A S bits n j i st hst).1
    simp only [decide_eq_true_eq, not_and]
    intro h1 _
    apply hne
    omega

theorem grid_bijOn (S : Int) :
    Set.BijOn (fun p : ℤ × ℤ => (p.2, S - 1 - p.1)) (pixelGrid S) (pixelGrid S) := by
  refine ⟨?_, ?_, ?_⟩
  · rintro ⟨x, y⟩ ⟨h1, h2, h3, h4⟩
    exact ⟨h3, h4, by simp only; omega, by simp only; omega⟩
  · rintro ⟨x, y⟩ _ ⟨x2, y2⟩ _ h
    simp only [Prod.mk.injEq] at h
    ext <;> simp only <;> omega
  · rintro ⟨c, r⟩ ⟨h1, h2, h3, h4⟩
    exact ⟨(S - 1 - r, c), ⟨by simp only; omega, by simp only; omega, h1, h2⟩, by
      simp only [Prod.mk.injEq, true_and]; omega⟩

/-- A run of `main` that reaches the pixel loops makes the stores of `lutStores`, with
options that passed the validation. -/
theorem main_ok (longMax : Int) (argv : List String) (o : Options) (stores : List (Store ℝ))
    (h : main exactReal longMax argv = .ok (o, stores)) :
    parseArgs longMax argv = .ok o ∧ stores = lutStores exactReal o.size o.bits o.samples := by
  unfold main at h
  cases hp : parseArgs longMax argv with
  | error msg => rw [hp] at h; simp at h
  | ok o2 =>
    rw [hp] at h
    simp only [Except.ok.injEq, Prod.mk.injEq] at h
    obtain ⟨h1, h2⟩ := h
    subst h1
    exact ⟨rfl, h2.symm⟩

/-- The stores of the pixel loops, for an edge size `S ≥ 1` and `bits ∈ {16, 32}`. -/
theorem lutStores_populated (S bits n : Int) (hS : 1 ≤ S) (hb : bits = 16 ∨ bits = 32) :
    (∀ x y : Nat, (x : Int) < S → (y : Int) < S →
      ∀ st ∈ pixelStores exactReal S bits n y x,
        st.column = y ∧ st.row = S - 1 - x ∧ (st.column, st.row) ∈ pixelGrid S) ∧
    (∀ st ∈ lutStores exactReal S bits n, (st.column, st.row) ∈ pixelGrid S) ∧
    (∀ c r : Int, (c, r) ∈ pixelGrid S →
      (lutStores exactReal S bits n).filter (fun st => decide (st.column = c ∧ st.row = r))
        = [⟨c, r,
            if bits = 16 then
              .half (IntegrateBRDF exactReal (((c : ℝ) + 1 / 2) / (S : ℝ))
                ((((S - 1 - r : ℤ) : ℝ) + 1 / 2) / (S : ℝ)) (toUInt32 n))
            else
              .full (IntegrateBRDF exactReal (((c : ℝ) + 1 / 2) / (S : ℝ))
                ((((S - 1 - r : ℤ) : ℝ) + 1 / 2) / (S : ℝ)) (toUInt32 n))⟩]) := by
  have hpix : ∀ x y : Nat, (x : Int) < S → (y : Int) < S →
      ∀ st ∈ pixelStores exactReal S bits n y x,
        st.column = y ∧ st.row = S - 1 - x ∧ (st.column, st.row) ∈ pixelGrid S := by
    intro x y hx hy st hst
    obtain ⟨h1, h2⟩ := pixelStores_coord exactReal S bits n x y st hst
    refine ⟨h1, h2, ?_⟩
    rw [h1, h2]
    exact ⟨by omega, hy, by omega, by omega⟩
  refine ⟨hpix, ?_, ?_⟩
  · intro st hst
    unfold lutStores at hst
    obtain ⟨y, hy, hst⟩ := List.mem_flatMap.1 hst
    obtain ⟨x, hx, hst⟩ := List.mem_flatMap.1 hst
    have hy2 := List.mem_range.1 hy
    have hx2 := List.mem_range.1 hx
    exact (hpix x y (by omega) (by omega) st hst).2.2
  · rintro c r ⟨hc0, hc, hr0, hr⟩
    rw [filter_lutStores exactReal S bits n hb c r hc0 hc hr0 hr, pixelParams_exactReal]

/-- C6: in a run of `main` with edge size `S ≥ 1`, the loop stores the result of pixel
`(x, y)` at texel `(column y, row S - 1 - x)`, always inside the `S × S` texture;
`(x, y) ↦ (y, S - 1 - x)` is a bijection of the grid; and every texel `(c, r)` receives
exactly one store, holding `IntegrateBRDF((c + 0.5) / S, (S - 1 - r + 0.5) / S, N)` in the
storage format chosen by `bits` (a packed pair of halves for 16, two floats for 32). -/
theorem lut_fully_populated (longMax : Int) (argv : List String) (o : Options)
    (stores : List (Store ℝ)) (hrun : main exactReal longMax argv = .ok (o, stores))
    (hS : 1 ≤ o.size) :
    (∀ x y : Nat, (x : Int) < o.size → (y : Int) < o.size →
      ∀ st ∈ pixelStores exactReal o.size o.bits o.samples y x,
        st ∈ stores ∧ st.column = y ∧ st.row = o.size - 1 - x ∧
          (st.column, st.row) ∈ pixelGrid o.size) ∧
    (∀ st ∈ stores, (st.column, st.row) ∈ pixelGrid o.size) ∧
    Set.BijOn (fun p : ℤ × ℤ => (p.2, o.size - 1 - p.1)) (pixelGrid o.size) (pixelGrid o.size) ∧
    (∀ c r : Int, (c, r) ∈ pixelGrid o.size →
      stores.filter (fun st => decide (st.column = c ∧ st.row = r))
        = [⟨c, r,
            if o.bits = 16 then
              .half (IntegrateBRDF exactReal (((c : ℝ) + 1 / 2) / (o.size : ℝ))
                ((((o.size - 1 - r : ℤ) : ℝ) + 1 / 2) / (o.size : ℝ)) (toUInt32 o.samples))
            else
              .full (IntegrateBRDF exactReal (((c : ℝ) + 1 / 2) / (o.size : ℝ))
                ((((o.size - 1 - r : ℤ) : ℝ) + 1 / 2) / (o.size : ℝ)) (toUInt32 o.samples))⟩]) := by
  obtain ⟨hp, hst⟩ := main_ok longMax argv o stores hrun
  obtain ⟨h1, h2, h3⟩ := lutStores_populated o.size o.bits o.samples hS
    (parseArgs_valid longMax argv o hp).2.2
  subst hst
  exact ⟨fun x y hx hy st hmem =>
      ⟨pixelStores_mem_lutStores exactReal o.size o.bits o.samples x y hx hy st hmem,
        h1 x y hx hy st hmem⟩,
    h2, grid_bijOn o.size, h3⟩

/-- C6 (witness): in the run `BRDFGenerator -f lut.dds -s 4 -b 32`, texel `(1, 2)` receives
exactly one store, the result of pixel `(x, y) = (1, 1)`. -/
theorem lut_fully_populated_witness :
    (lutStores exactReal 4 32 1024).filter (fun st => decide (st.column = 1 ∧ st.row = 2))
      = [⟨1, 2, .full (IntegrateBRDF exactReal ((((1 : ℤ) : ℝ) + 1 / 2) / ((4 : ℤ) : ℝ))
          ((((4 - 1 - 2 : ℤ) : ℝ) + 1 / 2) / ((4 : ℤ) : ℝ)) (toUInt32 1024))⟩] := by
  have hp : parseArgs 2147483647 ["BRDFGenerator", "-f", "lut.dds", "-s", "4", "-b", "32"]
      = .ok ⟨1024, 4, 32, "lut.dds", 0⟩ := parseArgs_of_toOption _ _ _ (by decide)
  have hrun : main exactReal 2147483647 ["BRDFGenerator", "-f", "lut.dds", "-s", "4", "-b", "32"]
      = .ok (⟨1024, 4, 32, "lut.dds", 0⟩, lutStores exactReal 4 32 1024) := by
    simp only [main, hp]
  have h := (lut_fully_populated 2147483647 _ _ _ hrun (by decide)).2.2.2 1 2
    ⟨by decide, by decide, by decide, by decide⟩
  simpa using h

/-! ## The split-sum integral (C1) -/

theorem glm_max_exactReal (x y : ℝ) : glm_max exactReal.toFloatOps x y = Max.max x y := by
  unfold glm_max
  rw [exactReal_lt, max_def]
  by_cases h : x < y
  · simp [h, h.le]
  · rcases eq_or_lt_of_le (not_lt.1 h) with h2 | h2
    · simp [h2]
    · simp [h, not_le.2 h2]

theorem dot_exactReal (u v : Vec3 ℝ) : dot exactReal.toFloatOps u v = realDot u v := rfl

theorem viewVector_exactReal (NdotV : ℝ) : viewVector exactReal NdotV = sampleV NdotV := by
  simp [viewVector, sampleV, pow_two]

theorem normalVector_exactReal : normalVector exactReal.toFloatOps = ⟨0, 0, 1⟩ := by
  simp [normalVector]

theorem pow_five_exactReal (x : ℝ) : exactReal.pow x (5 : ℝ) = x ^ 5 := by
  rw [exactReal_pow]
  have : (5 : ℝ) = ((5 : ℕ) : ℝ) := by norm_num
  rw [this, Real.rpow_natCast]

/-- One iteration of the loop in exact arithmetic: an accepted sample (`NoL_i > 0`) adds its
two terms, a rejected one leaves the accumulators unchanged. -/
theorem sampleStep_exactReal (NdotV roughness : ℝ) (N : ℕ) (acc : ℝ × ℝ) (i : ℕ) :
    sampleStep exactReal (sampleV NdotV) ⟨0, 0, 1⟩ roughness N acc i
      = if 0 < sampleNoL NdotV roughness N i then
          (acc.1 + (1 - sampleFc NdotV roughness N i) * sampleGVis NdotV roughness N i,
           acc.2 + sampleFc NdotV roughness N i * sampleGVis NdotV roughness N i)
        else acc := by
  unfold sampleStep
  simp only [glm_max_exactReal, dot_exactReal, exactReal_lit, exactReal_lt,
    exactReal_mul, exactReal_sub, exactReal_add, exactReal_div, Rat.cast_zero, Rat.cast_one,
    Rat.cast_ofNat, decide_eq_true_eq, pow_five_exactReal, vsub, scalev,
    sampleNoL, sampleL, sampleFc, sampleGVis, sampleVoH, sampleNoH, sampleNoV, sampleH]

/-- A loop that adds `(a i, b i)` to a pair of accumulators for the indices that pass the
test `c`, and skips the others, computes the two sums over the indices that pass. -/
theorem foldl_accept (c : ℕ → Prop) [DecidablePred c] (a b : ℕ → ℝ) (n : ℕ) :
    (List.range n).foldl (fun (acc : ℝ × ℝ) i => if c i then (acc.1 + a i, acc.2 + b i) else acc)
        (0, 0)
      = (∑ i in (Finset.range n).filter c, a i, ∑ i in (Finset.range n).filter c, b i) := by
  induction n with
  | zero => simp
  | succ n ih =>
    rw [List.range_succ, List.foldl_append, ih, Finset.range_succ, Finset.filter_insert]
    by_cases h : c n
    · simp [h, Finset.sum_insert, add_comm]
    · simp [h]

/-- `IntegrateBRDF` in exact arithmetic, as two sums over the accepted samples divided by
the sample count. -/
theorem IntegrateBRDF_exactReal (NdotV roughness : ℝ) (N : ℕ) :
    IntegrateBRDF exactReal NdotV roughness N
      = ⟨(∑ i in (Finset.range N).filter (fun i => 0 < sampleNoL NdotV roughness N i),
            (1 - sampleFc NdotV roughness N i) * sampleGVis NdotV roughness N i) / (N : ℝ),
         (∑ i in (Finset.range N).filter (fun i => 0 < sampleNoL NdotV roughness N i),
            sampleFc NdotV roughness N i * sampleGVis NdotV roughness N i) / (N : ℝ)⟩ := by
  have hstep : sampleStep exactReal (sampleV NdotV) ⟨0, 0, 1⟩ roughness N
      = fun (acc : ℝ × ℝ) i => if 0 < sampleNoL NdotV roughness N i then
          (acc.1 + (1 - sampleFc NdotV roughness N i) * sampleGVis NdotV roughness N i,
           acc.2 + sampleFc NdotV roughness N i * sampleGVis NdotV roughness N i)
        else acc := by
    funext acc i
    exact sampleStep_exactReal NdotV roughness N acc i
  unfold IntegrateBRDF
  simp only [viewVector_exactReal, normalVector_exactReal, hstep, exactReal_lit, Rat.cast_zero,
    exactReal_div, exactReal_ofInt, Int.cast_natCast]
  rw [foldl_accept]

/-- C1: for `N ≥ 1`, `IntegrateBRDF(NdotV, roughness, N)` is `(SA / N, SB / N)`, where `SA`
and `SB` are the sums of `(1 - Fc_i) * G_Vis_i` and of `Fc_i * G_Vis_i` over exactly the
indices `i < N` with `NoL_i > 0`; the divisor is `N`, not the number of accepted samples. -/
theorem IntegrateBRDF_eq_sums (NdotV roughness : ℝ) (N : ℕ) (_hN : 1 ≤ N) :
    IntegrateBRDF exactReal NdotV roughness N
      = ⟨(∑ i in (Finset.range N).filter (fun i => 0 < sampleNoL NdotV roughness N i),
            (1 - sampleFc NdotV roughness N i) * sampleGVis NdotV roughness N i) / (N : ℝ),
         (∑ i in (Finset.range N).filter (fun i => 0 < sampleNoL NdotV roughness N i),
            sampleFc NdotV roughness N i * sampleGVis NdotV roughness N i) / (N : ℝ)⟩ :=
  IntegrateBRDF_exactReal NdotV roughness N

/-- C1 (witness): two samples at `NdotV = 1/2`, `roughness = 1/2`. -/
theorem IntegrateBRDF_eq_sums_witness :
    IntegrateBRDF exactReal (1 / 2) (1 / 2) 2
      = ⟨(∑ i in (Finset.range 2).filter (fun i => 0 < sampleNoL (1 / 2) (1 / 2) 2 i),
            (1 - sampleFc (1 / 2) (1 / 2) 2 i) * sampleGVis (1 / 2) (1 / 2) 2 i) / ((2 : ℕ) : ℝ),
         (∑ i in (Finset.range 2).filter (fun i => 0 < sampleNoL (1 / 2) (1 / 2) 2 i),
            sampleFc (1 / 2) (1 / 2) 2 i * sampleGVis (1 / 2) (1 / 2) 2 i) / ((2 : ℕ) : ℝ)⟩ :=
  IntegrateBRDF_eq_sums (1 / 2) (1 / 2) 2 (by norm_num)

/-! ## The sampled half vector (C3) -/

theorem f64_999_le_one : f64 (999 / 1000) ≤ 1 := by
  have := roundBinary_mono 53 (by norm_num) (by norm_num : (0 : ℚ) ≤ 999 / 1000)
    (by norm_num : (999 / 1000 : ℚ) ≤ 1)
  rwa [roundBinary_one 53 (by norm_num)] at this

theorem normalize_exactReal (v : Vec3 ℝ) :
    normalize exactReal v
      = ⟨v.x * (1 / Real.sqrt (realDot v v)), v.y * (1 / Real.sqrt (realDot v v)),
         v.z * (1 / Real.sqrt (realDot v v))⟩ := by
  simp [normalize, vscale, dot_exactReal]

theorem normalize_of_unit (v : Vec3 ℝ) (h : realDot v v = 1) : normalize exactReal v = v := by
  rw [normalize_exactReal, h]
  simp

/-- The tangent for the normal `(0, 0, 1)` and the helper `(1, 0, 0)`. -/
theorem tangent_exactReal :
    normalize exactReal (cross exactReal.toFloatOps ⟨1, 0, 0⟩ ⟨0, 0, 1⟩) = ⟨0, -1, 0⟩ := by
  have hc : cross exactReal.toFloatOps (⟨1, 0, 0⟩ : Vec3 ℝ) ⟨0, 0, 1⟩ = ⟨0, -1, 0⟩ := by
    simp [cross]
  rw [hc]
  exact normalize_of_unit _ (by simp [realDot])

/-- The bitangent for the normal `(0, 0, 1)`. -/
theorem bitangent_exactReal :
    cross exactReal.toFloatOps (⟨0, 0, 1⟩ : Vec3 ℝ) ⟨0, -1, 0⟩ = ⟨1, 0, 0⟩ := by
  simp [cross]

theorem frame_combination (hx hy hz : ℝ) :
    vadd exactReal.toFloatOps
      (vadd exactReal.toFloatOps (vscale exactReal.toFloatOps ⟨0, -1, 0⟩ hx)
        (vscale exactReal.toFloatOps ⟨1, 0, 0⟩ hy))
      (vscale exactReal.toFloatOps ⟨0, 0, 1⟩ hz) = ⟨hy, -hx, hz⟩ := by
  simp [vadd, vscale]

/-- For the normal `(0, 0, 1)` the helper `up` is `(1, 0, 0)`, the tangent frame is
`(0, -1, 0), (1, 0, 0), (0, 0, 1)`, and the vector passed to the final `normalize` is
`(H.y, -H.x, H.z)`. -/
theorem ImportanceSampleGGX_frame (Xi : Vec2 ℝ) (roughness : ℝ) :
    ImportanceSampleGGX exactReal Xi roughness ⟨0, 0, 1⟩
      = normalize exactReal
          ⟨Real.sin (2 * (PI : ℝ) * Xi.x) * sinThetaGGX roughness Xi.y,
           -(Real.cos (2 * (PI : ℝ) * Xi.x) * sinThetaGGX roughness Xi.y),
           cosThetaGGX roughness Xi.y⟩ := by
  have hup : ¬ (|(1 : ℝ)| < ((f64 (999 / 1000) : ℚ) : ℝ)) := by
    rw [abs_one, not_lt]
    have h : ((f64 (999 / 1000) : ℚ) : ℝ) ≤ ((1 : ℚ) : ℝ) := Rat.cast_le.2 f64_999_le_one
    rwa [Rat.cast_one] at h
  unfold ImportanceSampleGGX
  simp only [exactReal_lt, exactReal_abs, exactReal_lit, Rat.cast_one, Rat.cast_zero]
  simp only [hup, decide_False, Bool.false_eq_true, if_false, tangent_exactReal,
    bitangent_exactReal, frame_combination]
  simp only [exactReal_mul, exactReal_sub, exactReal_add, exactReal_div, exactReal_sqrt,
    exactReal_cos, exactReal_sin, Rat.cast_ofNat, cosThetaGGX, sinThetaGGX, pow_two]

/-- The sampled polar cosine is a square root of a number in `[0, 1]`. -/
theorem cosThetaGGX_sq (roughness y : ℝ) (hy0 : 0 ≤ y) (hy1 : y < 1) :
    cosThetaGGX roughness y ^ 2 = (1 - y) / (1 + ((roughness ^ 2) ^ 2 - 1) * y) ∧
      0 ≤ cosThetaGGX roughness y ^ 2 ∧ cosThetaGGX roughness y ^ 2 ≤ 1 := by
  have ha : 0 ≤ (roughness ^ 2) ^ 2 := by positivity
  have hden : 0 < 1 + ((roughness ^ 2) ^ 2 - 1) * y := by nlinarith
  have ht : 0 ≤ (1 - y) / (1 + ((roughness ^ 2) ^ 2 - 1) * y) :=
    div_nonneg (by linarith) hden.le
  have hsq : cosThetaGGX roughness y ^ 2 = (1 - y) / (1 + ((roughness ^ 2) ^ 2 - 1) * y) := by
    unfold cosThetaGGX
    exact Real.sq_sqrt ht
  refine ⟨hsq, by rw [hsq]; exact ht, ?_⟩
  rw [hsq, div_le_one hden]
  nlinarith

/-- The vector built from the spherical angles has unit length. -/
theorem spherical_unit (roughness y phi : ℝ) (hy0 : 0 ≤ y) (hy1 : y < 1) :
    realDot
      ⟨Real.sin phi * sinThetaGGX roughness y, -(Real.cos phi * sinThetaGGX roughness y),
        cosThetaGGX roughness y⟩
      ⟨Real.sin phi * sinThetaGGX roughness y, -(Real.cos phi * sinThetaGGX roughness y),
        cosThetaGGX roughness y⟩ = 1 := by
  obtain ⟨_, _, h1⟩ := cosThetaGGX_sq roughness y hy0 hy1
  have hs : sinThetaGGX roughness y ^ 2 = 1 - cosThetaGGX roughness y ^ 2 := by
    unfold sinThetaGGX
    exact Real.sq_sqrt (by linarith)
  have htrig := Real.sin_sq_add_cos_sq phi
  simp only [realDot]
  nlinarith [htrig, hs]

/-- The half vector returned for the normal `(0, 0, 1)`, in closed form. -/
theorem ImportanceSampleGGX_exactReal (Xi : Vec2 ℝ) (roughness : ℝ) (hy0 : 0 ≤ Xi.y)
    (hy1 : Xi.y < 1) :
    ImportanceSampleGGX exactReal Xi roughness ⟨0, 0, 1⟩
      = ⟨Real.sin (2 * (PI : ℝ) * Xi.x) * sinThetaGGX roughness Xi.y,
         -(Real.cos (2 * (PI : ℝ) * Xi.x) * sinThetaGGX roughness Xi.y),
         cosThetaGGX roughness Xi.y⟩ := by
  rw [ImportanceSampleGGX_frame]
  exact normalize_of_unit _ (spherical_unit roughness Xi.y _ hy0 hy1)

/-- C3: for a sample point in `[0, 1)^2`, a roughness in `[0, 1]` and the normal
`(0, 0, 1)`, `ImportanceSampleGGX` returns a vector of length 1 (exact arithmetic), hence
of magnitude within `1e-5` of 1. -/
theorem ImportanceSampleGGX_unit (Xi : Vec2 ℝ) (roughness : ℝ)
    (_hx : 0 ≤ Xi.x ∧ Xi.x < 1) (hy : 0 ≤ Xi.y ∧ Xi.y < 1)
    (_hr : 0 ≤ roughness ∧ roughness ≤ 1) :
    length exactReal (ImportanceSampleGGX exactReal Xi roughness (normalVector exactReal.toFloatOps))
      = 1 ∧
    |length exactReal (ImportanceSampleGGX exactReal Xi roughness (normalVector exactReal.toFloatOps))
      - 1| ≤ 1 / 100000 := by
  have h : length exactReal
      (ImportanceSampleGGX exactReal Xi roughness (normalVector exactReal.toFloatOps)) = 1 := by
    rw [normalVector_exactReal, ImportanceSampleGGX_exactReal Xi roughness hy.1 hy.2]
    unfold length
    rw [dot_exactReal, spherical_unit roughness Xi.y _ hy.1 hy.2, exactReal_sqrt, Real.sqrt_one]
  refine ⟨h, ?_⟩
  rw [h]; norm_num

/-- C3 (witness): the sample point `(1/4, 1/2)` at roughness `1/2`. -/
theorem ImportanceSampleGGX_unit_witness :
    length exactReal
      (ImportanceSampleGGX exactReal ⟨1 / 4, 1 / 2⟩ (1 / 2) (normalVector exactReal.toFloatOps))
      = 1 :=
  (ImportanceSampleGGX_unit ⟨1 / 4, 1 / 2⟩ (1 / 2) (by norm_num) (by norm_num) (by norm_num)).1

/-! ## The mirror limit (C7) -/

theorem Hammersley_exactReal_y (i N : ℕ) :
    0 ≤ (Hammersley exactReal.toFloatOps i N).y ∧ (Hammersley exactReal.toFloatOps i N).y < 1 :=
  RadicalInverse_VdC_exactReal_range i

theorem cosThetaGGX_zero (y : ℝ) (hy1 : y < 1) : cosThetaGGX 0 y = 1 := by
  unfold cosThetaGGX
  have h : (1 - y) / (1 + (((0 : ℝ) ^ 2) ^ 2 - 1) * y) = 1 := by
    have : 1 + (((0 : ℝ) ^ 2) ^ 2 - 1) * y = 1 - y := by ring
    rw [this, div_self (by linarith)]
  rw [h, Real.sqrt_one]

theorem sinThetaGGX_zero (y : ℝ) (hy1 : y < 1) : sinThetaGGX 0 y = 0 := by
  unfold sinThetaGGX
  rw [cosThetaGGX_zero y hy1]
  norm_num

/-- At roughness 0 every half vector is the normal. -/
theorem sampleH_zero (N i : ℕ) : sampleH 0 N i = ⟨0, 0, 1⟩ := by
  obtain ⟨h0, h1⟩ := Hammersley_exactReal_y i N
  unfold sampleH
  rw [ImportanceSampleGGX_exactReal _ 0 h0 h1, cosThetaGGX_zero _ h1, sinThetaGGX_zero _ h1]
  simp

theorem sampleV_one : sampleV 1 = ⟨0, 0, 1⟩ := by
  simp [sampleV]

/-- At `NdotV = 1` and roughness 0 every light vector is the normal. -/
theorem sampleL_mirror (N i : ℕ) : sampleL 1 0 N i = ⟨0, 0, 1⟩ := by
  unfold sampleL
  rw [sampleH_zero, sampleV_one]
  have : (⟨2 * realDot ⟨0, 0, 1⟩ ⟨0, 0, 1⟩ * 0 - 0, 2 * realDot ⟨0, 0, 1⟩ ⟨0, 0, 1⟩ * 0 - 0,
      2 * realDot ⟨0, 0, 1⟩ ⟨0, 0, 1⟩ * 1 - 1⟩ : Vec3 ℝ) = ⟨0, 0, 1⟩ := by
    simp [realDot]; norm_num
  rw [this]
  exact normalize_of_unit _ (by simp [realDot])

theorem mirror_terms (N i : ℕ) :
    sampleNoL 1 0 N i = 1 ∧ sampleGVis 1 0 N i = 1 ∧ sampleFc 1 0 N i = 0 := by
  have hNoL : sampleNoL 1 0 N i = 1 := by
    unfold sampleNoL; rw [sampleL_mirror]; simp
  have hNoH : sampleNoH 0 N i = 1 := by
    unfold sampleNoH; rw [sampleH_zero]; simp
  have hVoH : sampleVoH 1 0 N i = 1 := by
    unfold sampleVoH; rw [sampleH_zero, sampleV_one]; simp [realDot]
  have hNoV : sampleNoV 1 = 1 := by
    unfold sampleNoV; rw [sampleV_one]; simp [realDot]
  refine ⟨hNoL, ?_, ?_⟩
  · unfold sampleGVis
    rw [hNoL, hNoH, hVoH, hNoV]
    simp [GeometrySmith, GeometrySchlickGGX]
  · unfold sampleFc
    rw [hVoH]; norm_num

/-! ## The bit reversal is an involution (C19) -/

/-- Reversing twice gives the word back. -/
theorem RadicalInverse_bits_twice (i : Nat) (hi : i < 4294967296) :
    RadicalInverse_bits (RadicalInverse_bits i) = i := by
  apply Nat.eq_of_testBit_eq
  intro j
  by_cases hj : j < 32
  · rw [RadicalInverse_bits_testBit _ (RadicalInverse_bits_lt i) j hj,
      RadicalInverse_bits_testBit i hi (31 - j) (by omega)]
    congr 1
    omega
  · rw [word32_of_lt _ (RadicalInverse_bits_lt _) j (by omega), word32_of_lt i hi j (by omega)]

/-- C19: the bit permutation of `RadicalInverse_VdC` is an involution on 32-bit words,
hence injective: distinct sample indices get distinct reversed integers. -/
theorem RadicalInverse_bits_involution (i j : Nat) (hi : i < 4294967296) (hj : j < 4294967296) :
    RadicalInverse_bits (RadicalInverse_bits i) = i ∧
    (RadicalInverse_bits i = RadicalInverse_bits j → i = j) ∧
    (i ≠ j → RadicalInverse_bits i ≠ RadicalInverse_bits j) := by
  have hinj : RadicalInverse_bits i = RadicalInverse_bits j → i = j := by
    intro h
    rw [← RadicalInverse_bits_twice i hi, ← RadicalInverse_bits_twice j hj, h]
  exact ⟨RadicalInverse_bits_twice i hi, hinj, fun hne h => hne (hinj h)⟩

/-- C19 (witness): indices 1 and 2 reverse to `2^31` and `2^30`, and back. -/
theorem RadicalInverse_bits_involution_witness :
    RadicalInverse_bits 1 = 2147483648 ∧ RadicalInverse_bits 2147483648 = 1 ∧
      RadicalInverse_bits 1 ≠ RadicalInverse_bits 2 := by
  have h := RadicalInverse_bits_involution 1 2 (by norm_num) (by norm_num)
  have h1 : RadicalInverse_bits 1 = 2147483648 := by decide
  refine ⟨h1, ?_, h.2.2 (by norm_num)⟩
  have h2 := h.1
  rwa [h1] at h2

/-! ## The filename check (C11) and the defaults (C13) -/

/-- A run that passes the command-line checks has a file name whose `substr` after the
last `.` (the whole name when it has no `.`) is `dds` or `ktx`. -/
theorem parseArgs_extension (longMax : Int) (argv : List String) (o : Options)
    (h : parseArgs longMax argv = .ok o) :
    extension o.filename = "dds" ∨ extension o.filename = "ktx" := by
  unfold parseArgs at h
  split_ifs at h
  cases hloop : optionLoop longMax defaultOptions argv.tail with
  | error msg => rw [hloop] at h; simp at h
  | ok o2 =>
    rw [hloop] at h
    simp only at h
    split_ifs at h with h1 h2
    simp only [Except.ok.injEq] at h
    subst h
    by_contra hne
    exact h1 ⟨fun hd => hne (Or.inl hd), fun hk => hne (Or.inr hk)⟩

/-- C11 (failing input): the file names `dds` and `ktx`, which contain no `.`, pass the
check, and `main` goes on to build the table; names such as `lut.png`, `lut` and the
empty string are rejected with the extension message. -/
theorem main_accepts_bare_extension :
    ((parseArgs 2147483647 ["BRDFGenerator", "-f", "dds"]).toOption.map (fun o => o.filename)
        = some "dds" ∧ "dds".toList.contains '.' = false) ∧
    ((parseArgs 2147483647 ["BRDFGenerator", "-f", "ktx"]).toOption.map (fun o => o.filename)
        = some "ktx" ∧ "ktx".toList.contains '.' = false) ∧
    (main exactReal 2147483647 ["BRDFGenerator", "-f", "dds"]).toOption.map
        (fun r => r.1.filename) = some "dds" ∧
    (parseArgs 2147483647 ["BRDFGenerator", "-f", "lut.dds"]).toOption.map (fun o => o.filename)
        = some "lut.dds" ∧
    (parseArgs 2147483647 ["BRDFGenerator", "-f", "lut.png"]).toOption = none ∧
    (parseArgs 2147483647 ["BRDFGenerator", "-f", "lut"]).toOption = none ∧
    (parseArgs 2147483647 ["BRDFGenerator", "-f", ""]).toOption = none := by
  refine ⟨⟨by decide, by decide⟩, ⟨by decide, by decide⟩, ?_, by decide, by decide, by decide,
    by decide⟩
  have h : parseArgs 2147483647 ["BRDFGenerator", "-f", "dds"]
      = .ok ⟨1024, 128, 16, "dds", 0⟩ := parseArgs_of_toOption _ _ _ (by decide)
  simp only [main, h, Except.toOption, Option.map_some']

theorem length_flatMap_range_const {α : Type} (n k : Nat) (f : Nat → List α)
    (h : ∀ i, i < n → (f i).length = k) : ((List.range n).flatMap f).length = n * k := by
  induction n with
  | zero => simp
  | succ n ih =>
    rw [List.range_succ, List.flatMap_append, List.length_append,
      ih (fun i hi => h i (by omega))]
    simp only [List.flatMap_cons, List.flatMap_nil, List.append_nil]
    rw [h n (by omega)]
    ring

/-- The pixel loops make `size * size` stores. -/
theorem lutStores_length {F : Type} (A : MathOps F) (S bits n : Int)
    (hb : bits = 16 ∨ bits = 32) : (lutStores A S bits n).length = S.toNat * S.toNat := by
  unfold lutStores
  apply length_flatMap_range_const
  intro y _
  rw [length_flatMap_range_const S.toNat 1, Nat.mul_one]
  intro x _
  unfold pixelStores
  rcases hb with hb | hb <;> subst hb <;> simp

/-- C13 (failing input): without `-s`, `-n` and `-b` the table is built with 1024 samples
and 16 bits, but with size 128 (`128 * 128 = 16384` texels), while the usage text printed
by the same `main` says `Default: 256`. -/
theorem main_default_size :
    (parseArgs 2147483647 ["BRDFGenerator", "-f", "lut.dds"]).toOption.map
        (fun o => (o.size, o.samples, o.bits)) = some (128, 1024, 16) ∧
    (main exactReal 2147483647 ["BRDFGenerator", "-f", "lut.dds"]).toOption.map
        (fun r => (r.1.size, r.2.length)) = some (128, 16384) ∧
    parseArgs 2147483647 ["BRDFGenerator"]
      = .error ("Usage: BRDFGenerator -f filename <Options>\n"
        ++ "Options:\n"
        ++ "\t-s SIZE \tThe size of the lookup table in pixels [size x size]. Default: 256\n"
        ++ "\t-n SAMPLES \tThe number of BRDF samples to integrate per pixel. Default: 1024\n"
        ++ "\t-b BITS \tThe number of floating point bits used for texture storage. "
        ++ "Can either be 16 or 32. Default: 16\n\n") := by
  have h : parseArgs 2147483647 ["BRDFGenerator", "-f", "lut.dds"]
      = .ok ⟨1024, 128, 16, "lut.dds", 0⟩ := parseArgs_of_toOption _ _ _ (by decide)
  refine ⟨by decide, ?_, by rfl⟩
  simp only [main, h, Except.toOption, Option.map_some']
  rw [lutStores_length exactReal 128 16 1024 (Or.inl rfl)]
  rfl

/-! ## Distinct pixels, distinct parameters (C12) -/

/-- C12: for an edge size `S ≥ 1`, the map `(x, y) ↦ ((y + 0.5) / S, (x + 0.5) / S)` that the
loop of `main` applies to a pixel is injective on the grid `[0, S) × [0, S)`: no two
distinct pixels get the same `(NdotV, roughness)` pair (exact arithmetic). -/
theorem pixel_params_injective (S : Int) (hS : 1 ≤ S) :
    Set.InjOn (fun p : ℤ × ℤ => pixelParams exactReal.toFloatOps S p.1 p.2) (pixelGrid S) ∧
    (∀ x y : ℤ, pixelParams exactReal.toFloatOps S x y
      = (((y : ℝ) + 1 / 2) / (S : ℝ), ((x : ℝ) + 1 / 2) / (S : ℝ))) := by
  have hS0 : (S : ℝ) ≠ 0 := by exact_mod_cast (by omega : S ≠ 0)
  refine ⟨?_, fun x y => pixelParams_exactReal S x y⟩
  rintro ⟨x, y⟩ _ ⟨x2, y2⟩ _ h
  simp only [pixelParams_exactReal, Prod.mk.injEq] at h
  obtain ⟨hy, hx⟩ := h
  rw [div_left_inj' hS0] at hy hx
  have hx2 : (x : ℝ) = x2 := by linarith
  have hy2 : (y : ℝ) = y2 := by linarith
  ext
  · exact_mod_cast hx2
  · exact_mod_cast hy2

/-- C12 (witness): in a table of edge 4, pixels `(0, 1)` and `(1, 0)` get different
parameters. -/
theorem pixel_params_injective_witness :
    pixelParams exactReal.toFloatOps 4 0 1 ≠ pixelParams exactReal.toFloatOps 4 1 0 := by
  intro h
  have hinj := (pixel_params_injective 4 (by norm_num)).1
  have h1 : ((0 : ℤ), (1 : ℤ)) ∈ pixelGrid 4 := ⟨by norm_num, by norm_num, by norm_num, by norm_num⟩
  have h2 : ((1 : ℤ), (0 : ℤ)) ∈ pixelGrid 4 := ⟨by norm_num, by norm_num, by norm_num, by norm_num⟩
  have := hinj h1 h2 h
  simp at this

/-! ## The constant `PI` -/

/-- Rounding down: `t` lies below the midpoint above the integer `n`. -/
theorem roundHalfEven_eq_of_lt {t : ℚ} (n : ℤ) (h1 : (n : ℚ) ≤ t) (h2 : t < (n : ℚ) + 1 / 2) :
    roundHalfEven t = n := by
  have hf : ⌊t⌋ = n := by
    rw [Int.floor_eq_iff]; constructor <;> linarith
  unfold roundHalfEven
  rw [hf, if_pos (by linarith)]

/-- The `double` denoted by the literal of `PI`. -/
theorem f64_pi_literal :
    f64 (314159265358979323846264338327950288 / 10 ^ 35) = 7074237752028440 / 2251799813685248 := by
  unfold f64
  rw [roundBinary_eq 53 1 (by norm_num) (by norm_num),
    roundHalfEven_eq_of_lt 7074237752028440 (by norm_num) (by norm_num)]
  norm_num

/-- The constant `PI` of the program is the `float` `13176795 / 2^22 = 3.1415927410125732...`. -/
theorem PI_eq : PI = 13176795 / 4194304 := by
  unfold PI
  rw [f64_pi_literal]
  unfold f32
  rw [roundBinary_eq 24 1 (by norm_num) (by norm_num),
    roundHalfEven_eq_of_gt 13176795 (by norm_num) (by norm_num)]
  norm_num

/-- The constant `PI` differs from `π` by less than `10^-6`. -/
theorem PI_near_pi : |((PI : ℚ) : ℝ) - Real.pi| < 1 / 1000000 := by
  rw [PI_eq, abs_lt]
  have h1 := Real.pi_gt_d6
  have h2 := Real.pi_lt_d6
  constructor <;> norm_num <;> linarith

/-! ## Range and symmetry of the geometry term (C17) -/

theorem GeometrySchlickGGX_exactReal (x roughness : ℝ) :
    GeometrySchlickGGX exactReal.toFloatOps x roughness = G1 (roughness ^ 2 / 2) x := by
  simp [GeometrySchlickGGX, G1, pow_two]

theorem GeometrySmith_exactReal (roughness NoV NoL : ℝ) :
    GeometrySmith exactReal.toFloatOps roughness NoV NoL
      = G1 (roughness ^ 2 / 2) NoV * G1 (roughness ^ 2 / 2) NoL := by
  unfold GeometrySmith
  simp only [GeometrySchlickGGX_exactReal, exactReal_mul]
  ring

/-- The divisor of `G1` is positive unless `x = 0` and `k = 0`. -/
theorem G1_denom_pos (k x : ℝ) (hk0 : 0 ≤ k) (hk1 : k ≤ 1) (hx : 0 ≤ x) (h : k ≠ 0 ∨ x ≠ 0) :
    0 < x * (1 - k) + k := by
  have h1 : 0 ≤ x * (1 - k) := mul_nonneg hx (by linarith)
  rcases h with h | h
  · have : 0 < k := lt_of_le_of_ne hk0 (Ne.symm h)
    linarith
  · have hxpos : 0 < x := lt_of_le_of_ne hx (Ne.symm h)
    rcases eq_or_lt_of_le hk0 with hk | hk
    · rw [← hk]; linarith
    · linarith

theorem G1_nonneg (k x : ℝ) (hk0 : 0 ≤ k) (hk1 : k ≤ 1) (hx : 0 ≤ x) : 0 ≤ G1 k x := by
  unfold G1
  exact div_nonneg hx (add_nonneg (mul_nonneg hx (by linarith)) hk0)

theorem G1_le_one (k x : ℝ) (hk0 : 0 ≤ k) (hk1 : k ≤ 1) (hx0 : 0 ≤ x) (hx1 : x ≤ 1) :
    G1 k x ≤ 1 := by
  unfold G1
  have hd : 0 ≤ x * (1 - k) + k := add_nonneg (mul_nonneg hx0 (by linarith)) hk0
  apply div_le_one_of_le₀ _ hd
  nlinarith

theorem half_sq_range (roughness : ℝ) (h0 : 0 ≤ roughness) (h1 : roughness ≤ 1) :
    0 ≤ roughness ^ 2 / 2 ∧ roughness ^ 2 / 2 ≤ 1 := by
  constructor
  · positivity
  · nlinarith

/-- C17: for a roughness in `[0, 1]` and cosines `NoV, NoL` in `[0, 1]`, outside the `0 / 0`
case (a zero cosine with roughness 0), both divisors of `GeometrySmith` are positive, its
value lies in `[0, 1]`, and it is symmetric in its two cosines. -/
theorem GeometrySmith_range (roughness NoV NoL : ℝ) (hr : 0 ≤ roughness ∧ roughness ≤ 1)
    (hv : 0 ≤ NoV ∧ NoV ≤ 1) (hl : 0 ≤ NoL ∧ NoL ≤ 1)
    (hdef : roughness ≠ 0 ∨ (NoV ≠ 0 ∧ NoL ≠ 0)) :
    (0 < NoV * (1 - roughness ^ 2 / 2) + roughness ^ 2 / 2 ∧
      0 < NoL * (1 - roughness ^ 2 / 2) + roughness ^ 2 / 2) ∧
    (0 ≤ GeometrySmith exactReal.toFloatOps roughness NoV NoL ∧
      GeometrySmith exactReal.toFloatOps roughness NoV NoL ≤ 1) ∧
    GeometrySmith exactReal.toFloatOps roughness NoV NoL
      = GeometrySmith exactReal.toFloatOps roughness NoL NoV := by
  obtain ⟨hk0, hk1⟩ := half_sq_range roughness hr.1 hr.2
  have hkne : roughness ≠ 0 → roughness ^ 2 / 2 ≠ 0 := by
    intro h
    have : 0 < roughness ^ 2 := by positivity
    positivity
  have hcase : ∀ x : ℝ, (roughness ≠ 0 ∨ x ≠ 0) → (roughness ^ 2 / 2 ≠ 0 ∨ x ≠ 0) := by
    intro x h
    rcases h with h | h
    · exact Or.inl (hkne h)
    · exact Or.inr h
  refine ⟨⟨G1_denom_pos _ NoV hk0 hk1 hv.1 (hcase NoV (hdef.imp id (fun h => h.1))),
    G1_denom_pos _ NoL hk0 hk1 hl.1 (hcase NoL (hdef.imp id (fun h => h.2)))⟩, ⟨?_, ?_⟩, ?_⟩
  · rw [GeometrySmith_exactReal]
    exact mul_nonneg (G1_nonneg _ _ hk0 hk1 hv.1) (G1_nonneg _ _ hk0 hk1 hl.1)
  · rw [GeometrySmith_exactReal]
    calc G1 (roughness ^ 2 / 2) NoV * G1 (roughness ^ 2 / 2) NoL
        ≤ 1 * 1 := mul_le_mul (G1_le_one _ _ hk0 hk1 hv.1 hv.2) (G1_le_one _ _ hk0 hk1 hl.1 hl.2)
          (G1_nonneg _ _ hk0 hk1 hl.1) (by norm_num)
      _ = 1 := by norm_num
  · rw [GeometrySmith_exactReal, GeometrySmith_exactReal, mul_comm]

/-- C17 (witness): roughness `1/2`, cosines `1/2` and `1`. -/
theorem GeometrySmith_range_witness :
    0 ≤ GeometrySmith exactReal.toFloatOps (1 / 2) (1 / 2) 1 ∧
      GeometrySmith exactReal.toFloatOps (1 / 2) (1 / 2) 1 ≤ 1 :=
  (GeometrySmith_range (1 / 2) (1 / 2) 1 (by norm_num) (by norm_num) (by norm_num)
    (Or.inl (by norm_num))).2.1

/-! ## The tangent frame of the fixed normal (C14) -/

/-- C14: for the normal `(0, 0, 1)` the test `abs(N.z) < 0.999` fails, so `up = (1, 0, 0)`,
`tangent = (0, -1, 0)` and `bitangent = (1, 0, 0)`, an orthonormal basis with `N`; for `Xi`
in `[0, 1)^2` and a roughness in `[0, 1]` the vector returned is
`(sin(phi) * sinTheta, -cos(phi) * sinTheta, cosTheta)` with `phi = 2 * PI * Xi.x` (`PI` the
constant of the program, within `10^-6` of `π`),
`cosTheta = sqrt((1 - Xi.y) / (1 + (a^2 - 1) * Xi.y))`, `a = roughness^2` and
`sinTheta = sqrt(1 - cosTheta^2)`; its `z` component is `cosTheta`. -/
theorem ImportanceSampleGGX_tangent_frame (Xi : Vec2 ℝ) (roughness : ℝ)
    (_hx : 0 ≤ Xi.x ∧ Xi.x < 1) (hy : 0 ≤ Xi.y ∧ Xi.y < 1)
    (_hr : 0 ≤ roughness ∧ roughness ≤ 1) :
    exactReal.lt (exactReal.abs (normalVector exactReal.toFloatOps).z)
      (exactReal.lit (f64 (999 / 1000))) = false ∧
    normalize exactReal (cross exactReal.toFloatOps ⟨1, 0, 0⟩ ⟨0, 0, 1⟩) = ⟨0, -1, 0⟩ ∧
    cross exactReal.toFloatOps (⟨0, 0, 1⟩ : Vec3 ℝ) ⟨0, -1, 0⟩ = ⟨1, 0, 0⟩ ∧
    (realDot ⟨0, -1, 0⟩ ⟨0, -1, 0⟩ = 1 ∧ realDot ⟨1, 0, 0⟩ ⟨1, 0, 0⟩ = 1 ∧
      realDot ⟨0, 0, 1⟩ ⟨0, 0, 1⟩ = 1 ∧ realDot ⟨0, -1, 0⟩ ⟨1, 0, 0⟩ = 0 ∧
      realDot ⟨0, -1, 0⟩ ⟨0, 0, 1⟩ = 0 ∧ realDot ⟨1, 0, 0⟩ ⟨0, 0, 1⟩ = 0) ∧
    ImportanceSampleGGX exactReal Xi roughness (normalVector exactReal.toFloatOps)
      = ⟨Real.sin (2 * (PI : ℝ) * Xi.x)
            * Real.sqrt (1 - Real.sqrt ((1 - Xi.y) / (1 + ((roughness ^ 2) ^ 2 - 1) * Xi.y)) ^ 2),
         -(Real.cos (2 * (PI : ℝ) * Xi.x)
            * Real.sqrt (1 - Real.sqrt ((1 - Xi.y) / (1 + ((roughness ^ 2) ^ 2 - 1) * Xi.y)) ^ 2)),
         Real.sqrt ((1 - Xi.y) / (1 + ((roughness ^ 2) ^ 2 - 1) * Xi.y))⟩ ∧
    (ImportanceSampleGGX exactReal Xi roughness (normalVector exactReal.toFloatOps)).z
      = Real.sqrt ((1 - Xi.y) / (1 + ((roughness ^ 2) ^ 2 - 1) * Xi.y)) ∧
    |((PI : ℚ) : ℝ) - Real.pi| < 1 / 1000000 := by
  have hup : ¬ (|(1 : ℝ)| < ((f64 (999 / 1000) : ℚ) : ℝ)) := by
    rw [abs_one, not_lt]
    have h : ((f64 (999 / 1000) : ℚ) : ℝ) ≤ ((1 : ℚ) : ℝ) := Rat.cast_le.2 f64_999_le_one
    rwa [Rat.cast_one] at h
  have hH := ImportanceSampleGGX_exactReal Xi roughness hy.1 hy.2
  simp only [cosThetaGGX, sinThetaGGX] at hH
  refine ⟨?_, tangent_exactReal, bitangent_exactReal, ?_, ?_, ?_, PI_near_pi⟩
  · rw [normalVector_exactReal, exactReal_lt, exactReal_abs, exactReal_lit]
    simp only [hup, decide_False]
  · simp [realDot]
  · rw [normalVector_exactReal, hH]
  · rw [normalVector_exactReal, hH]

/-- C14 (witness): the sample point `(1/4, 1/2)` at roughness 1, where `cosTheta` is
`sqrt(1/2)`. -/
theorem ImportanceSampleGGX_tangent_frame_witness :
    (ImportanceSampleGGX exactReal ⟨1 / 4, 1 / 2⟩ 1 (normalVector exactReal.toFloatOps)).z
      = Real.sqrt (1 / 2) := by
  have h := (ImportanceSampleGGX_tangent_frame ⟨1 / 4, 1 / 2⟩ 1 (by norm_num) (by norm_num)
    (by norm_num)).2.2.2.2.2.1
  rw [h]
  norm_num

/-! ## Unit vectors of the sample loop -/

theorem sampleL_eq (NdotV roughness : ℝ) (N i : ℕ) :
    sampleL NdotV roughness N i = normalize exactReal (sampleR NdotV roughness N i) := rfl

theorem ImportanceSampleGGX_sampleVec (Xi : Vec2 ℝ) (roughness : ℝ) :
    ImportanceSampleGGX exactReal Xi roughness ⟨0, 0, 1⟩
      = normalize exactReal (sampleVecGGX Xi roughness) :=
  ImportanceSampleGGX_frame Xi roughness

theorem sampleVecGGX_unit (Xi : Vec2 ℝ) (roughness : ℝ) (hy0 : 0 ≤ Xi.y) (hy1 : Xi.y < 1) :
    realDot (sampleVecGGX Xi roughness) (sampleVecGGX Xi roughness) = 1 :=
  spherical_unit roughness Xi.y _ hy0 hy1

/-- The half vector of a sample, in closed form. -/
theorem sampleH_eq (roughness : ℝ) (N i : ℕ) :
    sampleH roughness N i = sampleVecGGX (Hammersley exactReal.toFloatOps i N) roughness := by
  obtain ⟨h0, h1⟩ := Hammersley_exactReal_y i N
  unfold sampleH
  rw [ImportanceSampleGGX_sampleVec]
  exact normalize_of_unit _ (sampleVecGGX_unit _ roughness h0 h1)

theorem sampleH_unit (roughness : ℝ) (N i : ℕ) :
    realDot (sampleH roughness N i) (sampleH roughness N i) = 1 := by
  obtain ⟨h0, h1⟩ := Hammersley_exactReal_y i N
  rw [sampleH_eq]
  exact sampleVecGGX_unit _ roughness h0 h1

theorem cosThetaGGX_pos (roughness y : ℝ) (hy0 : 0 ≤ y) (hy1 : y < 1) :
    0 < cosThetaGGX roughness y := by
  have ha : 0 ≤ (roughness ^ 2) ^ 2 := by positivity
  have hden : 0 < 1 + ((roughness ^ 2) ^ 2 - 1) * y := by nlinarith
  unfold cosThetaGGX
  exact Real.sqrt_pos.2 (div_pos (by linarith) hden)

/-- The `z` component of every half vector is positive. -/
theorem sampleH_z_pos (roughness : ℝ) (N i : ℕ) : 0 < (sampleH roughness N i).z := by
  obtain ⟨h0, h1⟩ := Hammersley_exactReal_y i N
  rw [sampleH_eq]
  exact cosThetaGGX_pos roughness _ h0 h1

theorem sampleV_unit (NdotV : ℝ) (h : NdotV ^ 2 ≤ 1) :
    realDot (sampleV NdotV) (sampleV NdotV) = 1 := by
  have hs : Real.sqrt (1 - NdotV ^ 2) * Real.sqrt (1 - NdotV ^ 2) = 1 - NdotV ^ 2 :=
    Real.mul_self_sqrt (by linarith)
  simp only [realDot, sampleV]
  nlinarith

/-- Reflecting a unit vector about a unit vector gives a unit vector. -/
theorem reflect_unit (V H : Vec3 ℝ) (hV : realDot V V = 1) (hH : realDot H H = 1) :
    realDot
      ⟨2 * realDot V H * H.x - V.x, 2 * realDot V H * H.y - V.y, 2 * realDot V H * H.z - V.z⟩
      ⟨2 * realDot V H * H.x - V.x, 2 * realDot V H * H.y - V.y, 2 * realDot V H * H.z - V.z⟩
      = 1 := by
  have e : realDot
      ⟨2 * realDot V H * H.x - V.x, 2 * realDot V H * H.y - V.y, 2 * realDot V H * H.z - V.z⟩
      ⟨2 * realDot V H * H.x - V.x, 2 * realDot V H * H.y - V.y, 2 * realDot V H * H.z - V.z⟩
      = 4 * realDot V H ^ 2 * realDot H H - 4 * realDot V H ^ 2 + realDot V V := by
    simp only [realDot]
    ring
  rw [e, hV, hH]
  ring

theorem sampleR_unit (NdotV roughness : ℝ) (N i : ℕ) (h : NdotV ^ 2 ≤ 1) :
    realDot (sampleR NdotV roughness N i) (sampleR NdotV roughness N i) = 1 :=
  reflect_unit _ _ (sampleV_unit NdotV h) (sampleH_unit roughness N i)

theorem sampleL_eq_sampleR (NdotV roughness : ℝ) (N i : ℕ) (h : NdotV ^ 2 ≤ 1) :
    sampleL NdotV roughness N i = sampleR NdotV roughness N i := by
  rw [sampleL_eq]
  exact normalize_of_unit _ (sampleR_unit NdotV roughness N i h)

/-- Cauchy-Schwarz for unit vectors. -/
theorem realDot_le_one (V H : Vec3 ℝ) (hV : realDot V V = 1) (hH : realDot H H = 1) :
    realDot V H ≤ 1 := by
  simp only [realDot] at *
  nlinarith [sq_nonneg (V.x - H.x), sq_nonneg (V.y - H.y), sq_nonneg (V.z - H.z)]

theorem sampleVoH_range (NdotV roughness : ℝ) (N i : ℕ) (h : NdotV ^ 2 ≤ 1) :
    0 ≤ sampleVoH NdotV roughness N i ∧ sampleVoH NdotV roughness N i ≤ 1 := by
  unfold sampleVoH
  exact ⟨le_max_right _ _, max_le (realDot_le_one _ _ (sampleV_unit NdotV h)
    (sampleH_unit roughness N i)) (by norm_num)⟩

theorem sampleNoV_eq (NdotV : ℝ) : sampleNoV NdotV = Max.max NdotV 0 := by
  simp [sampleNoV, realDot, sampleV]

theorem sampleNoH_pos (roughness : ℝ) (N i : ℕ) : 0 < sampleNoH roughness N i := by
  unfold sampleNoH
  exact lt_max_of_lt_left (sampleH_z_pos roughness N i)

/-- Every per-sample weight is non-negative, and the Fresnel weight is at most 1. -/
theorem sample_terms_nonneg (NdotV roughness : ℝ) (N i : ℕ) (hn : NdotV ^ 2 ≤ 1)
    (hr0 : 0 ≤ roughness) (hr1 : roughness ≤ 1) :
    0 ≤ sampleGVis NdotV roughness N i ∧ 0 ≤ sampleFc NdotV roughness N i ∧
      sampleFc NdotV roughness N i ≤ 1 := by
  obtain ⟨hk0, hk1⟩ := half_sq_range roughness hr0 hr1
  obtain ⟨hv0, hv1⟩ := sampleVoH_range NdotV roughness N i hn
  have hNoV : 0 ≤ sampleNoV NdotV := by unfold sampleNoV; exact le_max_right _ _
  have hNoL : 0 ≤ sampleNoL NdotV roughness N i := by unfold sampleNoL; exact le_max_right _ _
  have hNoH : 0 ≤ sampleNoH roughness N i := (sampleNoH_pos roughness N i).le
  refine ⟨?_, ?_, ?_⟩
  · unfold sampleGVis
    rw [GeometrySmith_exactReal]
    exact div_nonneg (mul_nonneg (mul_nonneg (G1_nonneg _ _ hk0 hk1 hNoV)
      (G1_nonneg _ _ hk0 hk1 hNoL)) hv0) (mul_nonneg hNoH hNoV)
  · unfold sampleFc
    exact pow_nonneg (by linarith) 5
  · unfold sampleFc
    exact pow_le_one₀ (by linarith) (by linarith)

/-! ## Non-negative results (C16) -/

/-- C16: for `NdotV` in `(0, 1]`, a roughness in `[0, 1]` and `N ≥ 1`, both components of
`IntegrateBRDF(NdotV, roughness, N)` are non-negative (exact arithmetic): every sample has
`G_Vis ≥ 0` and a Fresnel weight `Fc = (1 - VoH)^5` in `[0, 1]`. -/
theorem IntegrateBRDF_nonneg (NdotV roughness : ℝ) (N : ℕ) (hn : 0 < NdotV ∧ NdotV ≤ 1)
    (hr : 0 ≤ roughness ∧ roughness ≤ 1) (_hN : 1 ≤ N) :
    0 ≤ (IntegrateBRDF exactReal NdotV roughness N).x ∧
    0 ≤ (IntegrateBRDF exactReal NdotV roughness N).y ∧
    (∀ i, i < N → 0 < sampleNoL NdotV roughness N i →
      0 ≤ sampleGVis NdotV roughness N i ∧ 0 ≤ sampleFc NdotV roughness N i ∧
        sampleFc NdotV roughness N i ≤ 1) := by
  have hsq : NdotV ^ 2 ≤ 1 := by nlinarith
  have hterms := fun i => sample_terms_nonneg NdotV roughness N i hsq hr.1 hr.2
  rw [IntegrateBRDF_exactReal]
  refine ⟨?_, ?_, fun i _ _ => hterms i⟩
  · apply div_nonneg _ (Nat.cast_nonneg N)
    apply Finset.sum_nonneg
    intro i _
    obtain ⟨h1, _, h3⟩ := hterms i
    exact mul_nonneg (by linarith) h1
  · apply div_nonneg _ (Nat.cast_nonneg N)
    apply Finset.sum_nonneg
    intro i _
    obtain ⟨h1, h2, _⟩ := hterms i
    exact mul_nonneg h2 h1

/-- C16 (witness): the centre of the table with the default sample count. -/
theorem IntegrateBRDF_nonneg_witness :
    0 ≤ (IntegrateBRDF exactReal (1 / 2) (1 / 2) 1024).x ∧
      0 ≤ (IntegrateBRDF exactReal (1 / 2) (1 / 2) 1024).y :=
  ⟨(IntegrateBRDF_nonneg (1 / 2) (1 / 2) 1024 (by norm_num) (by norm_num) (by norm_num)).1,
   (IntegrateBRDF_nonneg (1 / 2) (1 / 2) 1024 (by norm_num) (by norm_num) (by norm_num)).2.1⟩

/-! ## No zero divisor (C15) -/

/-- C15: for `NdotV` and a roughness in `(0, 1)`, `N ≥ 1` and a sample `i < N`, whose point
lies in `[0, 1)^2`, no division of `IntegrateBRDF` has a zero divisor (exact arithmetic):
`float(N)` is not 0; the divisor `1 + (a^2 - 1) * Xi.y` of `cosTheta` is positive; the
three vectors passed to `normalize` have length 1; the `G1` divisors `x * (1 - k) + k` are
positive for `x = NoV` and `x = NoL_i`; and `NoH_i * NoV > 0`. -/
theorem IntegrateBRDF_divisors (NdotV roughness : ℝ) (N i : ℕ) (hn : 0 < NdotV ∧ NdotV < 1)
    (hr : 0 < roughness ∧ roughness < 1) (hN : 1 ≤ N) (hi : i < N) :
    ((0 ≤ (Hammersley exactReal.toFloatOps i N).x ∧ (Hammersley exactReal.toFloatOps i N).x < 1) ∧
      (0 ≤ (Hammersley exactReal.toFloatOps i N).y ∧
        (Hammersley exactReal.toFloatOps i N).y < 1)) ∧
    exactReal.ofInt (N : ℤ) ≠ 0 ∧
    0 < 1 + ((roughness ^ 2) ^ 2 - 1) * (Hammersley exactReal.toFloatOps i N).y ∧
    (length exactReal (cross exactReal.toFloatOps ⟨1, 0, 0⟩ ⟨0, 0, 1⟩) = 1 ∧
      length exactReal (sampleVecGGX (Hammersley exactReal.toFloatOps i N) roughness) = 1 ∧
      length exactReal (sampleR NdotV roughness N i) = 1) ∧
    (0 < sampleNoV NdotV * (1 - roughness ^ 2 / 2) + roughness ^ 2 / 2 ∧
      0 < sampleNoL NdotV roughness N i * (1 - roughness ^ 2 / 2) + roughness ^ 2 / 2) ∧
    0 < sampleNoH roughness N i * sampleNoV NdotV := by
  have hsq : NdotV ^ 2 ≤ 1 := by nlinarith
  obtain ⟨hy0, hy1⟩ := Hammersley_exactReal_y i N
  obtain ⟨hk0, hk1⟩ := half_sq_range roughness hr.1.le hr.2.le
  have hkpos : roughness ^ 2 / 2 ≠ 0 := by
    have : 0 < roughness ^ 2 := by have := hr.1; positivity
    positivity
  have hNpos : (0 : ℝ) < N := by exact_mod_cast hN
  have hx : (Hammersley exactReal.toFloatOps i N).x = (i : ℝ) / N := by
    show (((i : ℕ) : ℤ) : ℝ) / (((N : ℕ) : ℤ) : ℝ) = _
    simp
  have hNoV : sampleNoV NdotV = NdotV := by
    rw [sampleNoV_eq]; exact max_eq_left hn.1.le
  have hNoL0 : 0 ≤ sampleNoL NdotV roughness N i := by unfold sampleNoL; exact le_max_right _ _
  have hlen : ∀ v : Vec3 ℝ, realDot v v = 1 → length exactReal v = 1 := by
    intro v hv
    unfold length
    rw [dot_exactReal, hv, exactReal_sqrt, Real.sqrt_one]
  refine ⟨⟨⟨?_, ?_⟩, hy0, hy1⟩, ?_, ?_, ⟨?_, ?_, ?_⟩, ⟨?_, ?_⟩, ?_⟩
  · rw [hx]; positivity
  · rw [hx, div_lt_one hNpos]; exact_mod_cast hi
  · rw [exactReal_ofInt]; exact_mod_cast (by omega : N ≠ 0)
  · have ha : 0 ≤ (roughness ^ 2) ^ 2 := by positivity
    nlinarith
  · apply hlen
    simp [cross, realDot]
  · exact hlen _ (sampleVecGGX_unit _ roughness hy0 hy1)
  · exact hlen _ (sampleR_unit NdotV roughness N i hsq)
  · rw [hNoV]
    exact G1_denom_pos _ _ hk0 hk1 hn.1.le (Or.inl hkpos)
  · exact G1_denom_pos _ _ hk0 hk1 hNoL0 (Or.inl hkpos)
  · rw [hNoV]
    exact mul_pos (sampleNoH_pos roughness N i) hn.1

/-- C15 (witness): the second of four samples at the centre of the table. -/
theorem IntegrateBRDF_divisors_witness :
    0 < sampleNoH (1 / 2) 4 1 * sampleNoV (1 / 2) ∧
      length exactReal (sampleR (1 / 2) (1 / 2) 4 1) = 1 :=
  ⟨(IntegrateBRDF_divisors (1 / 2) (1 / 2) 4 1 (by norm_num) (by norm_num) (by norm_num)
      (by norm_num)).2.2.2.2.2,
   (IntegrateBRDF_divisors (1 / 2) (1 / 2) 4 1 (by norm_num) (by norm_num) (by norm_num)
      (by norm_num)).2.2.2.1.2.2⟩

/-! ## The perfect mirror at any view angle (C18) -/

theorem sampleR_zero (NdotV : ℝ) (N i : ℕ) :
    sampleR NdotV 0 N i = ⟨-Real.sqrt (1 - NdotV ^ 2), 0, NdotV⟩ := by
  unfold sampleR
  rw [sampleH_zero]
  simp only [realDot, sampleV]
  congr 1 <;> ring

/-- The per-sample quantities at roughness 0, for `0 < NdotV ≤ 1`. -/
theorem zero_roughness_terms (NdotV : ℝ) (N i : ℕ) (h0 : 0 < NdotV) (h1 : NdotV ≤ 1) :
    sampleNoL NdotV 0 N i = NdotV ∧ sampleGVis NdotV 0 N i = 1 ∧
      sampleFc NdotV 0 N i = (1 - NdotV) ^ 5 := by
  have hsq : NdotV ^ 2 ≤ 1 := by nlinarith
  have hne : NdotV ≠ 0 := h0.ne'
  have hNoL : sampleNoL NdotV 0 N i = NdotV := by
    unfold sampleNoL
    rw [sampleL_eq_sampleR NdotV 0 N i hsq, sampleR_zero]
    exact max_eq_left h0.le
  have hNoH : sampleNoH 0 N i = 1 := by
    unfold sampleNoH; rw [sampleH_zero]; simp
  have hVoH : sampleVoH NdotV 0 N i = NdotV := by
    unfold sampleVoH
    rw [sampleH_zero]
    simp only [realDot, sampleV]
    rw [show Real.sqrt (1 - NdotV ^ 2) * 0 + 0 * 0 + NdotV * 1 = NdotV by ring]
    exact max_eq_left h0.le
  have hNoV : sampleNoV NdotV = NdotV := by
    rw [sampleNoV_eq]; exact max_eq_left h0.le
  have hG1 : G1 ((0 : ℝ) ^ 2 / 2) NdotV = 1 := by
    unfold G1
    rw [show NdotV * (1 - (0 : ℝ) ^ 2 / 2) + (0 : ℝ) ^ 2 / 2 = NdotV by ring]
    exact div_self hne
  refine ⟨hNoL, ?_, ?_⟩
  · unfold sampleGVis
    rw [hNoL, hNoH, hVoH, hNoV, GeometrySmith_exactReal, hG1]
    field_simp
  · unfold sampleFc
    rw [hVoH]

/-- C18 (amended): in exact arithmetic, at roughness 0, for `NdotV` in `(0, 1]` and every
`N ≥ 1`, `IntegrateBRDF(NdotV, 0, N) = (1 - (1 - NdotV)^5, (1 - NdotV)^5)`, whatever `N`:
every sample has `H = (0, 0, 1)`, is accepted and has `G_Vis = 1`; so `A + B = 1`. -/
theorem IntegrateBRDF_roughness_zero (NdotV : ℝ) (N : ℕ) (hn : 0 < NdotV ∧ NdotV ≤ 1)
    (hN : 1 ≤ N) :
    IntegrateBRDF exactReal NdotV 0 N = ⟨1 - (1 - NdotV) ^ 5, (1 - NdotV) ^ 5⟩ ∧
    (IntegrateBRDF exactReal NdotV 0 N).x + (IntegrateBRDF exactReal NdotV 0 N).y = 1 ∧
    (∀ i, i < N → sampleH 0 N i = ⟨0, 0, 1⟩ ∧ 0 < sampleNoL NdotV 0 N i ∧
      sampleGVis NdotV 0 N i = 1) := by
  have hterms := fun i => zero_roughness_terms NdotV N i hn.1 hn.2
  have hval : IntegrateBRDF exactReal NdotV 0 N = ⟨1 - (1 - NdotV) ^ 5, (1 - NdotV) ^ 5⟩ := by
    rw [IntegrateBRDF_exactReal]
    have hfilter : (Finset.range N).filter (fun i => 0 < sampleNoL NdotV 0 N i)
        = Finset.range N := by
      apply Finset.filter_true_of_mem
      intro i _
      rw [(hterms i).1]; exact hn.1
    have hN0 : (N : ℝ) ≠ 0 := by exact_mod_cast (by omega : N ≠ 0)
    rw [hfilter]
    have hA : ∑ i in Finset.range N, (1 - sampleFc NdotV 0 N i) * sampleGVis NdotV 0 N i
        = N * (1 - (1 - NdotV) ^ 5) := by
      rw [Finset.sum_congr rfl (fun i _ => by rw [(hterms i).2.1, (hterms i).2.2])]
      simp
    have hB : ∑ i in Finset.range N, sampleFc NdotV 0 N i * sampleGVis NdotV 0 N i
        = N * (1 - NdotV) ^ 5 := by
      rw [Finset.sum_congr rfl (fun i _ => by rw [(hterms i).2.1, (hterms i).2.2])]
      simp
    rw [hA, hB, mul_div_cancel_left₀ _ hN0, mul_div_cancel_left₀ _ hN0]
  refine ⟨hval, ?_, fun i _ => ⟨sampleH_zero N i, ?_, (hterms i).2.1⟩⟩
  · rw [hval]; ring
  · rw [(hterms i).1]; exact hn.1

/-- C18 (witness): in exact arithmetic `NdotV = 1/2` with 64 samples gives `(31/32, 1/32)`. -/
theorem IntegrateBRDF_roughness_zero_witness :
    IntegrateBRDF exactReal (1 / 2) 0 64 = ⟨1 - (1 - 1 / 2) ^ 5, (1 - 1 / 2) ^ 5⟩ :=
  (IntegrateBRDF_roughness_zero (1 / 2) 64 (by norm_num) (by norm_num)).1

/-! ## Single precision: further facts about rounding -/

/-- Rounding to nearest with ties to even is symmetric about zero. -/
theorem roundHalfEven_neg (t : ℚ) : roundHalfEven (-t) = -roundHalfEven t := by
  by_cases hint : (⌊t⌋ : ℚ) = t
  · rw [← hint, ← Int.cast_neg, roundHalfEven_intCast, roundHalfEven_intCast]
  · have h1 : (⌊t⌋ : ℚ) < t := lt_of_le_of_ne (Int.floor_le t) hint
    have h2 : t < ⌊t⌋ + 1 := Int.lt_floor_add_one t
    have hf : ⌊-t⌋ = -⌊t⌋ - 1 := by
      rw [Int.floor_eq_iff]; push_cast; constructor <;> linarith
    unfold roundHalfEven
    rw [hf]; push_cast
    split_ifs <;> first | omega | (exfalso; linarith)

theorem roundBinary_neg (p : ℕ) (q : ℚ) : roundBinary p (-q) = -roundBinary p q := by
  unfold roundBinary
  rw [abs_neg, neg_div, roundHalfEven_neg]
  push_cast; ring

theorem f32_neg (q : ℚ) : f32 (-q) = -f32 q := roundBinary_neg 24 q

theorem f32_zero : f32 0 = 0 := roundBinary_zero 24

theorem f32_pos {q : ℚ} (hq : 0 < q) : 0 < f32 q :=
  lt_of_lt_of_le (two_zpow_pos _) (roundBinary_bounds 24 (by norm_num) hq).1

theorem f32_idem (q : ℚ) : f32 (f32 q) = f32 q := by
  rcases le_total 0 q with h | h
  · exact roundBinary_idem 24 (by norm_num) h
  · have h2 : 0 ≤ -q := by linarith
    have := roundBinary_idem 24 (by norm_num) h2
    unfold f32
    rw [roundBinary_neg, roundBinary_neg] at this
    linarith

/-- A tie above an even integer goes down, to the even neighbour. -/
theorem roundHalfEven_tie_even (n : ℤ) (hn : n % 2 = 0) :
    roundHalfEven ((n : ℚ) + 1 / 2) = n := by
  have hf : ⌊(n : ℚ) + 1 / 2⌋ = n := by
    rw [Int.floor_eq_iff]; constructor <;> linarith
  unfold roundHalfEven
  rw [hf, if_neg (by linarith), if_neg (by linarith), if_pos hn]

/-- The `float` sum `16777216.0f + 1.0f` is `16777216.0f`: the accumulator of ones stops. -/
theorem f32_saturate_one : f32 (16777216 + 1) = 16777216 := by
  unfold f32
  rw [roundBinary_eq 24 24 (by norm_num) (by norm_num)]
  have : ((16777216 : ℚ) + 1) / 2 ^ ((24 : ℤ) + 1 - ((24 : ℕ) : ℤ)) = ((8388608 : ℤ) : ℚ) + 1 / 2 := by
    norm_num
  rw [this, roundHalfEven_tie_even 8388608 (by norm_num)]
  norm_num

/-- The `float` sum `524288.0f + 0.03125f` is `524288.0f`. -/
theorem f32_saturate_32nd : f32 (524288 + 1 / 32) = 524288 := by
  unfold f32
  rw [roundBinary_eq 24 19 (by norm_num) (by norm_num)]
  have : ((524288 : ℚ) + 1 / 32) / 2 ^ ((19 : ℤ) + 1 - ((24 : ℕ) : ℤ)) = ((8388608 : ℤ) : ℚ) + 1 / 2 := by
    norm_num
  rw [this, roundHalfEven_tie_even 8388608 (by norm_num)]
  norm_num

theorem roundHalfEvenR_intCast (n : ℤ) : roundHalfEvenR (n : ℝ) = n := by
  simp [roundHalfEvenR]

theorem floor_le_roundHalfEvenR (t : ℝ) : ⌊t⌋ ≤ roundHalfEvenR t := by
  unfold roundHalfEvenR
  split_ifs <;> omega

theorem f32R_zero : f32R 0 = 0 := by
  have h := roundHalfEvenR_intCast 0
  simp only [Int.cast_zero] at h
  simp [f32R, h]

/-- A power of two is a `float`. -/
theorem f32R_zpow (z : ℤ) : f32R ((2 : ℝ) ^ z) = 2 ^ z := by
  have hlog : Int.log 2 ((2 : ℝ) ^ z) = z := by
    have := Int.log_zpow (R := ℝ) (b := 2) (by norm_num) z
    simpa using this
  have hpos : (0 : ℝ) < 2 ^ z := zpow_pos (by norm_num) z
  unfold f32R
  rw [abs_of_pos hpos, hlog]
  have h1 : (2 : ℝ) ^ z / 2 ^ (z + 1 - 24) = ((8388608 : ℤ) : ℝ) := by
    rw [← zpow_sub₀ (by norm_num : (2 : ℝ) ≠ 0)]
    have : z - (z + 1 - 24) = 23 := by ring
    rw [this]; norm_num
  rw [h1, roundHalfEvenR_intCast]
  have h2 : (2 : ℚ) ^ z = 2 ^ (23 : ℤ) * 2 ^ (z + 1 - 24) := by
    rw [← zpow_add₀ (by norm_num : (2 : ℚ) ≠ 0)]
    congr 1; ring
  rw [h2]; norm_num

theorem f32R_pos {x : ℝ} (hx : 0 < x) : 0 < f32R x := by
  unfold f32R
  rw [abs_of_pos hx]
  have hle : (2 : ℝ) ^ Int.log 2 x ≤ x := by
    have := Int.zpow_log_le_self (R := ℝ) (b := 2) (by norm_num) hx
    simpa using this
  have hpos : (0 : ℝ) < 2 ^ (Int.log 2 x + 1 - 24) := zpow_pos (by norm_num) _
  have h1 : ((8388608 : ℤ) : ℝ) ≤ x / 2 ^ (Int.log 2 x + 1 - 24) := by
    rw [le_div_iff₀ hpos]
    have : ((8388608 : ℤ) : ℝ) * 2 ^ (Int.log 2 x + 1 - 24) = 2 ^ Int.log 2 x := by
      have e : Int.log 2 x = 23 + (Int.log 2 x + 1 - 24) := by ring
      conv_rhs => rw [e, zpow_add₀ (by norm_num : (2 : ℝ) ≠ 0)]
      norm_num
    rw [this]; exact hle
  have h2 : (8388608 : ℤ) ≤ roundHalfEvenR (x / 2 ^ (Int.log 2 x + 1 - 24)) :=
    le_trans (Int.le_floor.2 h1) (floor_le_roundHalfEvenR _)
  have h3 : (0 : ℚ) < (roundHalfEvenR (x / 2 ^ (Int.log 2 x + 1 - 24)) : ℤ) := by
    have : (0 : ℤ) < roundHalfEvenR (x / 2 ^ (Int.log 2 x + 1 - 24)) := by omega
    exact_mod_cast this
  exact mul_pos h3 (two_zpow_pos _)

/-- The correctly rounded library functions have the values used below. -/
theorem libm32_sane : libm32.Sane := by
  refine ⟨?_, ?_, ?_, ?_⟩
  · show f32R (Real.sqrt ((0 : ℚ) : ℝ)) = 0
    simp [f32R_zero]
  · show f32R (Real.sqrt ((1 : ℚ) : ℝ)) = 1
    have := f32R_zpow 0
    simpa using this
  · intro q hq
    show 0 < f32R (Real.sqrt (q : ℝ))
    exact f32R_pos (Real.sqrt_pos.2 (by exact_mod_cast hq))
  · show f32R ((((0 : ℚ) : ℝ)) ^ (((5 : ℚ) : ℝ))) = 0
    have : (((0 : ℚ) : ℝ)) ^ (((5 : ℚ) : ℝ)) = 0 := by
      rw [Rat.cast_zero]; exact Real.zero_rpow (by norm_num)
    rw [this, f32R_zero]

/-- The correctly rounded `pow(0.5, 5)` is `1/32`. -/
theorem libm32_pow_half : libm32.pow (1 / 2) 5 = 1 / 32 := by
  show f32R ((((1 / 2 : ℚ) : ℝ)) ^ (((5 : ℚ) : ℝ))) = 1 / 32
  have : (((1 / 2 : ℚ) : ℝ)) ^ (((5 : ℚ) : ℝ)) = (2 : ℝ) ^ (-5 : ℤ) := by
    have e : (((5 : ℚ) : ℝ)) = ((5 : ℕ) : ℝ) := by norm_num
    rw [e, Real.rpow_natCast]; norm_num
  rw [this, f32R_zpow]; norm_num

/-! ## Single precision: the sample loop at roughness 0 -/

@[simp] theorem binary32Math_toFloatOps (m : Libm) : (binary32Math m).toFloatOps = binary32 := rfl
@[simp] theorem binary32_lit (q : ℚ) : binary32.lit q = q := rfl
@[simp] theorem binary32_ofInt (n : ℤ) : binary32.ofInt n = f32 n := rfl
@[simp] theorem binary32_add (x y : ℚ) : binary32.add x y = f32 (x + y) := rfl
@[simp] theorem binary32_sub (x y : ℚ) : binary32.sub x y = f32 (x - y) := rfl
@[simp] theorem binary32_mul (x y : ℚ) : binary32.mul x y = f32 (x * y) := rfl
@[simp] theorem binary32_div (x y : ℚ) : binary32.div x y = f32 (x / y) := rfl
@[simp] theorem binary32_lt (x y : ℚ) : binary32.lt x y = decide (x < y) := rfl
@[simp] theorem binary32Math_sqrt (m : Libm) (x : ℚ) : (binary32Math m).sqrt x = m.sqrt x := rfl
@[simp] theorem binary32Math_cos (m : Libm) (x : ℚ) : (binary32Math m).cos x = m.cos x := rfl
@[simp] theorem binary32Math_sin (m : Libm) (x : ℚ) : (binary32Math m).sin x = m.sin x := rfl
@[simp] theorem binary32Math_abs (m : Libm) (x : ℚ) : (binary32Math m).abs x = |x| := rfl
@[simp] theorem binary32Math_pow (m : Libm) (x y : ℚ) : (binary32Math m).pow x y = m.pow x y := rfl

/-- At roughness 0 the half vector is the normal `(0, 0, 1)` in single precision too, for
every sample whose second coordinate is below 1: the quotient under the square root is
`(1 - y) / (1 - y)`, and `cos(phi)`, `sin(phi)` are multiplied by `sinTheta = 0`. -/
theorem ImportanceSampleGGX_float_zero (m : Libm) (hm : m.Sane) (Xi : Vec2 ℚ)
    (hy1 : Xi.y < 1) (hyr : f32 Xi.y = Xi.y) :
    ImportanceSampleGGX (binary32Math m) Xi 0 ⟨0, 0, 1⟩ = ⟨0, 0, 1⟩ := by
  obtain ⟨hs0, hs1, -, -⟩ := hm
  have hd : 0 < f32 (1 - Xi.y) := f32_pos (by linarith)
  have h999 : ¬ ((1 : ℚ) < f64 (999 / 1000)) := not_lt.2 f64_999_le_one
  have hden : f32 (1 + f32 (f32 (f32 (f32 (0 * 0) * f32 (0 * 0)) - 1) * Xi.y)) = f32 (1 - Xi.y) := by
    simp only [mul_zero, f32_zero, zero_sub, f32_neg, f32_one, neg_mul, one_mul, hyr]
    rw [sub_eq_add_neg]
  have hcos : f32 (f32 (1 - Xi.y) / f32 (1 - Xi.y)) = 1 := by
    rw [div_self (ne_of_gt hd), f32_one]
  simp only [ImportanceSampleGGX, normalize, cross, vadd, vscale, dot, binary32Math_toFloatOps,
    binary32_lit, binary32_add, binary32_sub, binary32_mul, binary32_div, binary32_lt,
    binary32Math_sqrt, binary32Math_cos, binary32Math_sin, binary32Math_abs]
  rw [hden, hcos]
  simp [hs0, hs1, f32_zero, f32_one, f32_neg, h999]

/-- The second coordinate of a sample point is a `float`. -/
theorem Hammersley_y_representable (i N : Nat) :
    f32 (Hammersley binary32 i N).y = (Hammersley binary32 i N).y := by
  rw [Hammersley_binary32_y]
  have e : f32 (RadicalInverse_bits i : ℚ) / 4294967296
      = f32 (RadicalInverse_bits i : ℚ) * 2 ^ (-32 : ℤ) := by norm_num; ring
  rw [e]
  unfold f32
  rw [roundBinary_mul_zpow 24 _ _ (roundBinary_nonneg 24 (by norm_num) (by positivity)),
    roundBinary_idem 24 (by norm_num) (by positivity)]

/-- For an index below `2^25` the reversed word is a multiple of 128. -/
theorem RadicalInverse_bits_low25 (i : Nat) (hi : i < 33554432) :
    RadicalInverse_bits i % 128 = 0 := by
  have h := mod_two_pow_eq_sum_bits (RadicalInverse_bits i) 7
  rw [show (2 : ℕ) ^ 7 = 128 by norm_num] at h
  rw [h]
  apply Finset.sum_eq_zero
  intro j hj
  have hj8 : j < 7 := Finset.mem_range.1 hj
  rw [RadicalInverse_bits_testBit i (by omega) j (by omega)]
  have : i.testBit (31 - j) = false := by
    apply Nat.testBit_lt_two_pow
    calc i < 2 ^ 25 := by simpa using hi
      _ ≤ 2 ^ (31 - j) := Nat.pow_le_pow_right (by norm_num) (by omega)
  simp [this]

/-- Below index `2^25 - 1` the second coordinate of a sample point is below 1 in single
precision: the reversed word is at most `2^32 - 256`, which is a `float`. -/
theorem Hammersley_y_lt_one (i N : Nat) (hi : i < 33554431) :
    (Hammersley binary32 i N).y < 1 := by
  rw [Hammersley_binary32_y]
  have h1 := RadicalInverse_bits_low25 i (by omega)
  have h2 := RadicalInverse_bits_lt i
  have h3 : RadicalInverse_bits i ≠ 4294967168 := by
    intro h
    have h4 := RadicalInverse_bits_twice i (by omega)
    rw [h] at h4
    have h5 : RadicalInverse_bits 4294967168 = 33554431 := by decide
    omega
  have h6 : RadicalInverse_bits i ≤ 4294967040 := by omega
  have h7 : ((RadicalInverse_bits i : ℕ) : ℚ) ≤ 4294967040 := by exact_mod_cast h6
  have h8 := f32_mono (by positivity) h7
  have h9 := f32_representable 16777215 8 (by norm_num)
  norm_num at h9
  rw [h9] at h8
  rw [div_lt_one (by norm_num)]
  linarith

/-- Doubling a `float` is exact. -/
theorem f32_two_mul {q : ℚ} (hq : 0 ≤ q) (hr : f32 q = q) : f32 (2 * q) = 2 * q := by
  have h := roundBinary_mul_zpow 24 q 1 hq
  have e : q * 2 ^ (1 : ℤ) = 2 * q := by norm_num; ring
  rw [e] at h
  unfold f32 at hr ⊢
  rw [h, hr]; norm_num; ring

/-- One iteration of the sample loop at roughness 0 in single precision, for a `float`
`NdotV` in `(0, 1]` and a sample whose second coordinate is below 1: the half vector is
`(0, 0, 1)`, the sample is accepted, `G_Vis` is exactly 1, and the accumulators receive
`1 - Fc` and `Fc` with `Fc = pow(1 - NdotV, 5)`, each sum rounded to a `float`.  It is used
at `NdotV = 1` and `NdotV = 0.5`, where `1 - NdotV`, `1 - Fc` and the `double` sums
`A + (1 - Fc)`, `B + Fc` of the source are exact, so that rounding them once to `float` is
what the source computes. -/
theorem sampleStep_float_zero (m : Libm) (hm : m.Sane) (n : ℚ) (hn0 : 0 < n)
    (hnr : f32 n = n) (N i : ℕ) (acc : ℚ × ℚ) (hy1 : (Hammersley binary32 i N).y < 1) :
    sampleStep (binary32Math m) (viewVector (binary32Math m) n)
        (normalVector (binary32Math m).toFloatOps) 0 N acc i
      = (f32 (acc.1 + f32 (f32 (1 - m.pow (f32 (1 - n)) 5))),
         f32 (acc.2 + f32 (m.pow (f32 (1 - n)) 5))) := by
  have hH := ImportanceSampleGGX_float_zero m hm (Hammersley binary32 i N) hy1
    (Hammersley_y_representable i N)
  obtain ⟨hs0, hs1, hspos, -⟩ := hm
  have h2n : f32 (2 * n) = 2 * n := f32_two_mul hn0.le hnr
  have e1 : 2 * n - n = n := by ring
  simp only [sampleStep, normalVector, viewVector, binary32Math_toFloatOps, binary32_lit] at hH ⊢
  rw [hH]
  simp only [normalize, vsub, scalev, vscale, dot, glm_max, GeometrySmith, GeometrySchlickGGX,
    binary32Math_toFloatOps, binary32_lit, binary32_add, binary32_sub, binary32_mul,
    binary32_div, binary32_lt, binary32Math_sqrt, binary32Math_pow, mul_zero, zero_mul,
    mul_one, one_mul, f32_zero, add_zero, zero_add, sub_zero, f32_one, hnr, h2n, e1, zero_div,
    sub_self]
  have hD : 0 < f32 (f32 (f32 (f32 (0 - m.sqrt (f32 (1 - f32 (n * n))))
      * f32 (0 - m.sqrt (f32 (1 - f32 (n * n)))))) + f32 (n * n)) :=
    f32_pos (add_pos_of_nonneg_of_pos (f32_nonneg (f32_nonneg (mul_self_nonneg _)))
      (f32_pos (mul_pos hn0 hn0)))
  have hXpos : 0 < f32 (n * f32 (1 / m.sqrt (f32 (f32 (f32 (f32 (0 -
      m.sqrt (f32 (1 - f32 (n * n)))) * f32 (0 - m.sqrt (f32 (1 - f32 (n * n))))))
      + f32 (n * n))))) :=
    f32_pos (mul_pos hn0 (f32_pos (one_div_pos.2 (hspos _ hD))))
  have hXr := f32_idem (n * f32 (1 / m.sqrt (f32 (f32 (f32 (f32 (0 -
      m.sqrt (f32 (1 - f32 (n * n)))) * f32 (0 - m.sqrt (f32 (1 - f32 (n * n))))))
      + f32 (n * n)))))
  generalize f32 (n * f32 (1 / m.sqrt (f32 (f32 (f32 (f32 (0 -
      m.sqrt (f32 (1 - f32 (n * n)))) * f32 (0 - m.sqrt (f32 (1 - f32 (n * n))))))
      + f32 (n * n))))) = X at hXpos hXr ⊢
  have hX0 : ¬ X < 0 := not_lt.2 hXpos.le
  have hn0' : ¬ n < 0 := not_lt.2 hn0.le
  have h10 : ¬ ((1 : ℚ) < 0) := by norm_num
  simp only [hX0, hn0', h10, hXpos, decide_True, decide_False, if_true, if_false, hXr, hnr,
    div_self (ne_of_gt hXpos), div_self (ne_of_gt hn0), f32_one, mul_one, one_mul,
    Bool.false_eq_true]

/-- The loop of `IntegrateBRDF(1, 0, N)` in single precision after `k` samples, none with
second coordinate 1: `A` counts the samples up to `2^24` and stays there, `B` stays 0. -/
theorem foldl_float_mirror (m : Libm) (hm : m.Sane) (N k : ℕ)
    (hy : ∀ i, i < k → (Hammersley binary32 i N).y < 1) :
    (List.range k).foldl (sampleStep (binary32Math m) (viewVector (binary32Math m) 1)
        (normalVector (binary32Math m).toFloatOps) 0 N) (0, 0)
      = (((min k 16777216 : ℕ) : ℚ), 0) := by
  induction k with
  | zero => simp
  | succ k ih =>
    rw [List.range_succ, List.foldl_append, ih (fun i hi => hy i (by omega)), List.foldl_cons,
      List.foldl_nil, sampleStep_float_zero m hm 1 (by norm_num) f32_one N k _ (hy k (by omega))]
    obtain ⟨-, -, -, hp0⟩ := hm
    simp only [sub_self, f32_zero, hp0, sub_zero, f32_one, add_zero]
    congr 1
    rcases Nat.lt_or_ge k 16777216 with h | h
    · rw [Nat.min_eq_left h.le, Nat.min_eq_left (by omega)]
      have := f32_natCast (k + 1) (by omega)
      push_cast at this ⊢
      exact this
    · rw [Nat.min_eq_right h, Nat.min_eq_right (by omega)]
      exact_mod_cast f32_saturate_one

/-- `IntegrateBRDF(1, 0, N)` in single precision when no sample has second coordinate 1. -/
theorem IntegrateBRDF_float_mirror (m : Libm) (hm : m.Sane) (N : ℕ)
    (hy : ∀ i, i < N → (Hammersley binary32 i N).y < 1) :
    IntegrateBRDF (binary32Math m) 1 0 N
      = ⟨f32 (((min N 16777216 : ℕ) : ℚ) / f32 (N : ℚ)), f32 (0 / f32 (N : ℚ))⟩ := by
  have h := foldl_float_mirror m hm N N hy
  simp only [binary32Math_toFloatOps] at h
  simp only [IntegrateBRDF, binary32Math_toFloatOps, binary32_lit, binary32_div, binary32_ofInt,
    Int.cast_natCast, h]

/-- The loop of `IntegrateBRDF(0.5, 0, N)` in single precision after `k` samples, none with
second coordinate 1, when `pow(0.5, 5)` is `1/32`: `B` grows by `1/32` per sample up to
`2^19` and stays there. -/
theorem foldl_float_half (m : Libm) (hm : m.Sane) (hp : m.pow (1 / 2) 5 = 1 / 32) (N k : ℕ)
    (hy : ∀ i, i < k → (Hammersley binary32 i N).y < 1) :
    ((List.range k).foldl (sampleStep (binary32Math m) (viewVector (binary32Math m) (1 / 2))
        (normalVector (binary32Math m).toFloatOps) 0 N) (0, 0)).2
      = ((min k 16777216 : ℕ) : ℚ) / 32 := by
  have hhalf : f32 (1 / 2) = 1 / 2 := by
    have := f32_representable 1 (-1) (by norm_num)
    norm_num at this; simpa using this
  induction k with
  | zero => simp
  | succ k ih =>
    rw [List.range_succ, List.foldl_append, List.foldl_cons, List.foldl_nil,
      sampleStep_float_zero m hm (1 / 2) (by norm_num) hhalf N k _ (hy k (by omega))]
    simp only []
    rw [ih (fun i hi => hy i (by omega))]
    have e : (1 : ℚ) - 1 / 2 = 1 / 2 := by norm_num
    have h32 : f32 (1 / 32) = 1 / 32 := by
      have := f32_representable 1 (-5) (by norm_num)
      norm_num at this; simpa using this
    rw [e, hhalf, hp, h32]
    rcases Nat.lt_or_ge k 16777216 with h | h
    · rw [Nat.min_eq_left h.le, Nat.min_eq_left (by omega)]
      rcases Nat.lt_or_ge (k + 1) 16777216 with h2 | h2
      · have := f32_representable (k + 1) (-5) h2
        have e2 : ((k : ℕ) : ℚ) / 32 + 1 / 32 = ((k + 1 : ℕ) : ℚ) * 2 ^ (-5 : ℤ) := by
          push_cast; norm_num; ring
        rw [e2, this]; norm_num; ring
      · have hk : k = 16777215 := by omega
        subst hk
        have := f32_natCast 524288 (by norm_num)
        norm_num at this ⊢
        exact this
    · rw [Nat.min_eq_right h, Nat.min_eq_right (by omega)]
      have := f32_saturate_32nd
      norm_num at this ⊢
      exact this

/-! ## The perfect mirror (C7) and roughness 0 (C18) in single precision -/

/-- C7 (amended): for every sample count `N` with `1 ≤ N ≤ 2^24`,
`IntegrateBRDF(NdotV = 1, roughness = 0, N)` is exactly `(1, 0)` in single precision,
whatever the library's `cos` and `sin` return; in exact arithmetic it is exactly `(1, 0)`
for every `N ≥ 1`: every sample has `H = L = (0, 0, 1)`, `G_Vis = 1` and `Fc = 0`. -/
theorem IntegrateBRDF_mirror (N : ℕ) (hN : 1 ≤ N) :
    (N ≤ 16777216 → ∀ m : Libm, m.Sane → IntegrateBRDF (binary32Math m) 1 0 N = ⟨1, 0⟩) ∧
    IntegrateBRDF exactReal 1 0 N = ⟨1, 0⟩ ∧
    (∀ i, i < N → sampleH 0 N i = ⟨0, 0, 1⟩ ∧ sampleL 1 0 N i = ⟨0, 0, 1⟩ ∧
      sampleGVis 1 0 N i = 1 ∧ sampleFc 1 0 N i = 0) := by
  refine ⟨fun h24 m hm => ?_, ?_, fun i _ => ⟨sampleH_zero N i, sampleL_mirror N i,
    (mirror_terms N i).2.1, (mirror_terms N i).2.2⟩⟩
  · rw [IntegrateBRDF_float_mirror m hm N (fun i hi => Hammersley_y_lt_one i N (by omega)),
      Nat.min_eq_left h24, f32_natCast N h24]
    have hN0 : (N : ℚ) ≠ 0 := by exact_mod_cast (by omega : N ≠ 0)
    rw [div_self hN0, zero_div, f32_one, f32_zero]
  · rw [IntegrateBRDF_exactReal]
    have hfilter : (Finset.range N).filter (fun i => 0 < sampleNoL 1 0 N i)
        = Finset.range N := by
      apply Finset.filter_true_of_mem
      intro i _
      rw [(mirror_terms N i).1]; norm_num
    have hN0 : (N : ℝ) ≠ 0 := by exact_mod_cast (by omega : N ≠ 0)
    rw [hfilter]
    have hA : ∑ i in Finset.range N, (1 - sampleFc 1 0 N i) * sampleGVis 1 0 N i = N := by
      rw [Finset.sum_congr rfl (fun i _ => by
        rw [(mirror_terms N i).2.1, (mirror_terms N i).2.2])]
      simp
    have hB : ∑ i in Finset.range N, sampleFc 1 0 N i * sampleGVis 1 0 N i = 0 := by
      apply Finset.sum_eq_zero
      intro i _
      rw [(mirror_terms N i).2.2]; ring
    rw [hA, hB, div_self hN0, zero_div]

/-- C7 (witness): the default sample count, in single precision and in exact arithmetic. -/
theorem IntegrateBRDF_mirror_witness :
    IntegrateBRDF float32 1 0 1024 = ⟨1, 0⟩ ∧ IntegrateBRDF exactReal 1 0 1024 = ⟨1, 0⟩ :=
  ⟨(IntegrateBRDF_mirror 1024 (by norm_num)).1 (by norm_num) libm32 libm32_sane,
    (IntegrateBRDF_mirror 1024 (by norm_num)).2.1⟩

/-- C7 (counterexample): with `N = 33554431 = 2^25 - 1` samples (`-n 33554431`) no sample
has second coordinate 1, every sample adds `1.0` to the `float` accumulator `A`, which stops
at `2^24 = 16777216` because `16777216.0f + 1.0f` rounds back to `16777216.0f`; `float(N)`
is `33554432.0f`, so `IntegrateBRDF(1, 0, N)` returns `(0.5, 0)`: `A` is not close to 1. -/
theorem mirror_accumulator_saturates :
    IntegrateBRDF float32 1 0 33554431 = ⟨1 / 2, 0⟩ := by
  have h := IntegrateBRDF_float_mirror libm32 libm32_sane 33554431
    (fun i hi => Hammersley_y_lt_one i 33554431 hi)
  have hmin : min 33554431 16777216 = 16777216 := by decide
  have hN : f32 ((33554431 : ℕ) : ℚ) = 33554432 := by exact_mod_cast f32_33554431
  have hhalf : f32 (1 / 2) = 1 / 2 := by
    have := f32_representable 1 (-1) (by norm_num)
    norm_num at this; simpa using this
  rw [hmin, hN, zero_div, f32_zero] at h
  have e : (((16777216 : ℕ) : ℚ)) / 33554432 = 1 / 2 := by norm_num
  rw [e, hhalf] at h
  exact h

/-- C18 (counterexample): at `NdotV = 0.5`, roughness 0, every sample adds `31/32` to `A`
and `1/32` to `B`.  With one sample the single-precision result is `(31/32, 1/32)`; with
`N = 33554431 = 2^25 - 1` samples (`-n 33554431`) the `float` accumulator `B` stops at
`2^19 = 524288`, because `524288.0f + 0.03125f` rounds back to `524288.0f`, and
`B` is returned as `2^19 / 2^25 = 1/64`, not `(1 - 0.5)^5 = 1/32`: the result depends on
`N`. -/
theorem roughness_zero_accumulator_saturates :
    IntegrateBRDF float32 (1 / 2) 0 1 = ⟨31 / 32, 1 / 32⟩ ∧
    (IntegrateBRDF float32 (1 / 2) 0 33554431).y = 1 / 64 ∧
    (IntegrateBRDF float32 (1 / 2) 0 33554431).y ≠ (1 - 1 / 2) ^ 5 := by
  have hhalf : f32 (1 / 2) = 1 / 2 := by
    have := f32_representable 1 (-1) (by norm_num)
    norm_num at this; simpa using this
  have h32 : f32 (1 / 32) = 1 / 32 := by
    have := f32_representable 1 (-5) (by norm_num)
    norm_num at this; simpa using this
  have h3132 : f32 (31 / 32) = 31 / 32 := by
    have := f32_representable 31 (-5) (by norm_num)
    norm_num at this; simpa using this
  have h64 : f32 (1 / 64) = 1 / 64 := by
    have := f32_representable 1 (-6) (by norm_num)
    norm_num at this; simpa using this
  have hy : (IntegrateBRDF float32 (1 / 2) 0 33554431).y = 1 / 64 := by
    have h := foldl_float_half libm32 libm32_sane libm32_pow_half 33554431 33554431
      (fun i hi => Hammersley_y_lt_one i 33554431 hi)
    have hmin : min 33554431 16777216 = 16777216 := by decide
    have hN : f32 ((33554431 : ℕ) : ℚ) = 33554432 := by exact_mod_cast f32_33554431
    simp only [binary32Math_toFloatOps] at h
    simp only [IntegrateBRDF, float32, binary32Math_toFloatOps, binary32_lit, binary32_div,
      binary32_ofInt, Int.cast_natCast, h, hmin, hN]
    have e : (((16777216 : ℕ) : ℚ)) / 32 / 33554432 = 1 / 64 := by norm_num
    rw [e, h64]
  refine ⟨?_, hy, ?_⟩
  · have hp := libm32_pow_half
    have hstep := sampleStep_float_zero libm32 libm32_sane (1 / 2) (by norm_num) hhalf 1 0
      (0, 0) (Hammersley_y_lt_one 0 1 (by norm_num))
    have e : (1 : ℚ) - 1 / 2 = 1 / 2 := by norm_num
    have e2 : (1 : ℚ) - 1 / 32 = 31 / 32 := by norm_num
    simp only [e, hhalf, hp, h32, e2, h3132, zero_add, binary32Math_toFloatOps] at hstep
    have hr : List.range 1 = [0] := rfl
    simp only [IntegrateBRDF, float32, binary32Math_toFloatOps, binary32_lit, binary32_div,
      binary32_ofInt, hr, List.foldl_cons, List.foldl_nil, hstep]
    norm_num [f32_one, h3132, h32]
  · rw [hy]; norm_num

end BRDF
